import Mathlib

/-
  Verification development for the telegram-ingestion pipeline.

  The TypeScript sources are shallowly embedded: strings are modelled as
  `List Char` (JS `.length` counts UTF-16 units; all texts considered here
  are BMP-only, where the two coincide), JS regular expressions are
  modelled by a small backtracking matcher (`RE`/`mrun`) that reproduces
  leftmost scanning, greedy repetition with backtracking, ordered
  alternation and numbered capture groups for exactly the constructs the
  sources use, and stateful classes are modelled by explicit state
  passing.  Fallible code returns `Option`/`Except`.
-/

namespace TgIngest

/-- JS strings, modelled as lists of unicode scalar values. -/
abbrev JStr := List Char

/-- JS `\s` / whitespace used by `trim` (ASCII part; the inputs modelled
here contain no non-ASCII whitespace). -/
def wsChar (c : Char) : Bool :=
  c == ' ' || c == '\t' || c == '\n' || c == '\r' || c == '\x0b' || c == '\x0c'

/-- JS `\d`. -/
def digitChar (c : Char) : Bool := c.isDigit

/-- The class `[\d\.]`. -/
def digitDot (c : Char) : Bool := c.isDigit || c == '.'

/-- JS `\w` = `[A-Za-z0-9_]`. -/
def wordChar (c : Char) : Bool := c.isAlphanum || c == '_'

/-- ASCII letters. -/
def alphaChar (c : Char) : Bool := c.isAlpha

/-- `[A-Za-z\-]`. -/
def alphaDash (c : Char) : Bool := c.isAlpha || c == '-'

/-- `[A-Z]`. -/
def upperChar (c : Char) : Bool := 'A' ≤ c && c ≤ 'Z'

/-- `[a-z]`. -/
def lowerChar (c : Char) : Bool := 'a' ≤ c && c ≤ 'z'

/-- `String.prototype.includes` (substring containment). -/
def jsIncludes : JStr → JStr → Bool
  | s, sub =>
    if sub.isPrefixOf s then true
    else
      match s with
      | [] => false
      | _ :: t => jsIncludes t sub

/-- `String.prototype.trim`. -/
def jsTrim (s : JStr) : JStr :=
  ((s.dropWhile (wsChar ·)).reverse.dropWhile (wsChar ·)).reverse

/-- `String.prototype.toLowerCase` (ASCII case mapping suffices for the
alphabets involved). -/
def jsToLower (s : JStr) : JStr := s.map Char.toLower

/-- `String.prototype.toUpperCase` (ASCII). -/
def jsToUpper (s : JStr) : JStr := s.map Char.toUpper

/-- `String.prototype.indexOf` for a substring; `none` models `-1`. -/
def jsIndexOfSub : JStr → JStr → Option Nat
  | s, sub =>
    if sub.isPrefixOf s then some 0
    else
      match s with
      | [] => none
      | _ :: t => (jsIndexOfSub t sub).map (· + 1)

/-- `String.prototype.lastIndexOf` for a single character. -/
def jsLastIndexOfChar (s : JStr) (c : Char) : Option Nat :=
  (jsIndexOfSub s.reverse [c]).map (fun i => s.length - 1 - i)

/-- `s.substring(a, b)` (for the in-range uses occurring in the sources). -/
def jsSubstring (s : JStr) (a b : Nat) : JStr := (s.take b).drop a

/-- `String.prototype.split` with a single-character separator. -/
def jsSplitChar : JStr → Char → List JStr
  | [], _ => [[]]
  | c :: t, sep =>
    if c == sep then [] :: jsSplitChar t sep
    else
      match jsSplitChar t sep with
      | [] => [[c]]
      | seg :: rest => (c :: seg) :: rest

/-- `s.replace(pat, '')` with a *string* pattern: JS replaces only the
first occurrence. -/
def jsReplaceFirstEmpty : JStr → JStr → JStr
  | s, pat =>
    if pat.isPrefixOf s then s.drop pat.length
    else
      match s with
      | [] => []
      | c :: t => c :: jsReplaceFirstEmpty t pat

/-- Decimal rendering of a natural number (JS `Number` → string for the
integers arising here). -/
def natToDecGo : Nat → Nat → JStr → JStr
  | 0, _, acc => acc
  | fuel + 1, n, acc =>
    if n < 10 then Char.ofNat (48 + n) :: acc
    else natToDecGo fuel (n / 10) (Char.ofNat (48 + n % 10) :: acc)

/-- Decimal rendering of a natural number. -/
def natToDec (n : Nat) : JStr := natToDecGo (n + 1) n []

/-- Numeric value of a digit string. -/
def digitsToNat (s : JStr) : Nat :=
  s.foldl (fun acc c => acc * 10 + (c.toNat - 48)) 0

/-- JS `parseFloat`, restricted to the sign-less, exponent-less numerals
that can reach it here (captures of `[\d\.]+`): longest valid prefix of
`digits [ '.' digits ]` or `'.' digits`; `none` models `NaN`. -/
def jsParseFloat (s : JStr) : Option ℚ :=
  let intPart := s.takeWhile (digitChar ·)
  let rest := s.drop intPart.length
  match rest with
  | '.' :: r2 =>
    let frac := r2.takeWhile (digitChar ·)
    if intPart.isEmpty && frac.isEmpty then none
    else some ((digitsToNat intPart : ℚ) + (digitsToNat frac : ℚ) / (10 ^ frac.length : ℕ))
  | _ => if intPart.isEmpty then none else some (digitsToNat intPart)

/-- JS `x.toFixed(2)` for the non-negative values arising here
(`none` = `NaN` renders as `"NaN"`; rounding is to nearest, ties toward
the larger value, per the ECMAScript specification). -/
def jsToFixed2 : Option ℚ → JStr
  | none => 'N' :: 'a' :: 'N' :: []
  | some q =>
    let n := (Int.floor (q * 100 + 1 / 2)).toNat
    let frac := n % 100
    natToDec (n / 100) ++ '.' ::
      (if frac < 10 then '0' :: natToDec frac else natToDec frac)

/-! ### A backtracking matcher for the JS regexes used by the sources

`mrun re prev s` returns every way `re` can match a prefix of `s`, in JS
backtracking priority order (greedy repetition tries longer matches
first, alternation tries the left branch first); `prev` is the character
immediately before `s` in the full subject, needed for `\b`.  Each result
is the consumed prefix together with the numbered captures produced. -/

/-- Numbered capture groups of one match (JS `match[n]`). -/
abbrev RECaps := List (Nat × JStr)

/-- Regex abstract syntax: exactly the constructs appearing in the
sources' patterns.  `litCI` is a case-insensitive literal (`/i` flag),
`starCls`/`plusCls`/`repClsMax` are greedy `*`/`+`/`{0,n}` over a
character class, `opt` is greedy `?`, `wordB` is `\b`. -/
inductive RE where
  | eps : RE
  | lit : JStr → RE
  | litCI : JStr → RE
  | cls : (Char → Bool) → RE
  | starCls : (Char → Bool) → RE
  | plusCls : (Char → Bool) → RE
  | repClsMax : Nat → (Char → Bool) → RE
  | opt : RE → RE
  | seq : RE → RE → RE
  | alt : RE → RE → RE
  | grp : Nat → RE → RE
  | wordB : RE

/-- Case-insensitive (ASCII) prefix comparison. -/
def isPrefixOfCI : JStr → JStr → Bool
  | [], _ => true
  | _ :: _, [] => false
  | a :: as, b :: bs => (a.toLower == b.toLower) && isPrefixOfCI as bs

/-- All ways a regex matches a prefix of `s`, in backtracking priority
order. -/
def mrun : RE → Option Char → JStr → List (JStr × RECaps)
  | .eps, _, _ => [([], [])]
  | .lit l, _, s => if l.isPrefixOf s then [(l, [])] else []
  | .litCI l, _, s => if isPrefixOfCI l s then [(s.take l.length, [])] else []
  | .cls p, _, s =>
    match s with
    | [] => []
    | c :: _ => if p c then [([c], [])] else []
  | .starCls p, _, s =>
    let run := s.takeWhile p
    (List.range (run.length + 1)).reverse.map (fun k => (run.take k, []))
  | .plusCls p, _, s =>
    let run := s.takeWhile p
    (List.range run.length).reverse.map (fun k => (run.take (k + 1), []))
  | .repClsMax n p, _, s =>
    let run := s.takeWhile p
    let m := min n run.length
    (List.range (m + 1)).reverse.map (fun k => (run.take k, []))
  | .opt r, prev, s => mrun r prev s ++ [([], [])]
  | .seq a b, prev, s =>
    (mrun a prev s).flatMap fun ra =>
      (mrun b (ra.1.getLast?.orElse fun _ => prev) (s.drop ra.1.length)).map fun rb =>
        (ra.1 ++ rb.1, ra.2 ++ rb.2)
  | .alt a b, prev, s => mrun a prev s ++ mrun b prev s
  | .grp n r, prev, s => (mrun r prev s).map fun x => (x.1, (n, x.1) :: x.2)
  | .wordB, prev, s =>
    let wl := match prev with | some c => wordChar c | none => false
    let wr := match s with | c :: _ => wordChar c | [] => false
    if wl != wr then [([], [])] else []

/-- Leftmost match search from index `i`, with `prev` the character at
index `i - 1`. -/
def reFindGo (r : RE) : Option Char → Nat → JStr → Option (Nat × JStr × RECaps)
  | prev, i, [] =>
    match mrun r prev [] with
    | x :: _ => some (i, x.1, x.2)
    | [] => none
  | prev, i, c :: t =>
    match mrun r prev (c :: t) with
    | x :: _ => some (i, x.1, x.2)
    | [] => reFindGo r (some c) (i + 1) t

/-- JS `s.match(re)` without `/g`: leftmost match with captures. -/
def reFind (r : RE) (s : JStr) : Option (Nat × JStr × RECaps) :=
  reFindGo r none 0 s

/-- JS `re.test(s)`. -/
def reTest (r : RE) (s : JStr) : Bool := (reFind r s).isSome

/-- All matches of a `/g` regex, with absolute start indices; after a
match the scan resumes at its end (or one further for an empty match),
exactly like `lastIndex` advancement. -/
def reMatchAllGo (r : RE) : Nat → Option Char → Nat → JStr → List (Nat × JStr × RECaps)
  | 0, _, _, _ => []
  | fuel + 1, prev, base, s =>
    match reFindGo r prev base s with
    | none => []
    | some (j, m, caps) =>
      let skip := (j - base) + (if m.length == 0 then 1 else m.length)
      if skip ≤ s.length then
        (j, m, caps) ::
          reMatchAllGo r fuel ((s.take skip).getLast?.orElse fun _ => prev)
            (base + skip) (s.drop skip)
      else [(j, m, caps)]

/-- All matches of a `/g` regex over `s`. -/
def reMatchAllAbs (r : RE) (s : JStr) : List (Nat × JStr × RECaps) :=
  reMatchAllGo r (s.length + 1) none 0 s

/-- The segments of `s.split(re)` (the regexes used in `split` have no
capture groups and never match the empty string on the inputs at hand). -/
def reSplitGo (s : JStr) : Nat → List (Nat × JStr × RECaps) → List JStr
  | start, [] => [s.drop start]
  | start, (j, m, _) :: rest =>
    ((s.drop start).take (j - start)) :: reSplitGo s (j + m.length) rest

/-- JS `s.split(re)`. -/
def reSplit (r : RE) (s : JStr) : List JStr := reSplitGo s 0 (reMatchAllAbs r s)

/-- JS `s.replace(re-with-g, '')`. -/
def reReplaceAllEmpty (r : RE) (s : JStr) : JStr := (reSplit r s).flatten

/-- JS `s.match(/^.../)`: a match anchored at index 0. -/
def reMatchAt0 (r : RE) (s : JStr) : Option (JStr × RECaps) := (mrun r none s).head?

/-- JS `s.replace(/^pat/, '')`. -/
def reStripAt0 (r : RE) (s : JStr) : JStr :=
  match reMatchAt0 r s with
  | some (m, _) => s.drop m.length
  | none => s

/-- JS `/^...$/.test(s)`: some match consumes all of `s`. -/
def reTestFull (r : RE) (s : JStr) : Bool :=
  (mrun r none s).any (fun x => x.1.length == s.length)

/-- `match[n]`. -/
def capGet (caps : RECaps) (n : Nat) : Option JStr := caps.lookup n

/-- Sequencing of a pattern list. -/
def seqL (rs : List RE) : RE := rs.foldr RE.seq RE.eps

/-- Ordered alternation of a pattern list. -/
def altL : List RE → RE
  | [] => RE.eps
  | [r] => r
  | r :: rest => RE.alt r (altL rest)

/-- Single literal character. -/
def ch (c : Char) : RE := RE.lit [c]

/-- Single literal character under `/i`. -/
def chCI (c : Char) : RE := RE.litCI [c]

/-! ### `investmentParser.ts` — the deterministic extraction engine -/

namespace InvestmentParser

/-- The message shape consumed by the parsers (`telegram.ts`,
`TelegramMessage`); the NLP `entities` bundle is never read by the
functions modelled here and is omitted. -/
structure TelegramMessage where
  id : JStr := []
  date : JStr
  senderId : JStr := []
  senderName : JStr := []
  text : JStr
deriving DecidableEq, Repr

/-- The `type` field of `InvestmentData`. -/
inductive InvType where
  | investment
  | acquisition
  | roundup
deriving DecidableEq, Repr

/-- A TypeScript `string | string[]` field. -/
inductive StrOrList where
  | str : JStr → StrOrList
  | list : List JStr → StrOrList
deriving DecidableEq, Repr

/-- An entry of the `acquisitions` array of a roundup record. -/
structure RoundupAcq where
  company : JStr
  acquirer : JStr
  amount : Option JStr
deriving DecidableEq, Repr

/-- The `InvestmentData` interface of `investmentParser.ts`; absent
optional fields are `none`. -/
structure InvestmentData where
  company : StrOrList
  amount : Option StrOrList
  round : Option JStr
  investors : List JStr
  investorDetails : Option (List (JStr × JStr))
  type : InvType
  date : JStr
  valuation : Option JStr
  links : Option (List JStr)
  rawText : JStr
  isPartOfRoundup : Option Bool
  acquisitions : Option (List RoundupAcq)
deriving DecidableEq, Repr

/-- `\s+`. -/
def wsP : RE := RE.plusCls wsChar

/-- `.*` (no `/s` flag: `.` excludes the newline). -/
def dotStar : RE := RE.starCls (fun c => c != '\n')

/-- The url regex of `extractLinks`:
`(https?:\/\/[^\s]+)|(\bwww\.[^\s]+)|([a-zA-Z0-9][-a-zA-Z0-9]{0,62}\.(?:com|io|org|net|finance|xyz|app|dev|eth|crypto|nft|fund)[^\s)*,;:!]?)`,
flags `gi`. -/
def urlRegex : RE :=
  altL
    [ seqL [RE.litCI "http".toList, RE.opt (chCI 's'), RE.lit "://".toList,
        RE.plusCls (fun c => !wsChar c)]
    , seqL [RE.wordB, RE.litCI "www".toList, ch '.', RE.plusCls (fun c => !wsChar c)]
    , seqL [RE.cls (fun c => c.isAlphanum),
        RE.repClsMax 62 (fun c => c.isAlphanum || c == '-'), ch '.',
        altL ((["com", "io", "org", "net", "finance", "xyz", "app", "dev",
                "eth", "crypto", "nft", "fund"].map String.toList).map RE.litCI),
        RE.opt (RE.cls (fun c => !(wsChar c || c == ')' || c == '*' || c == ',' ||
          c == ';' || c == ':' || c == '!')))] ]

/-- `/^\d+(\.\d+)?M?B?$/` (case-sensitive). -/
def amountTokenRE : RE :=
  seqL [RE.plusCls digitChar, RE.opt (RE.grp 1 (RE.seq (ch '.') (RE.plusCls digitChar))),
    RE.opt (ch 'M'), RE.opt (ch 'B')]

/-- `extractLinks` of `investmentParser.ts`. -/
def extractLinks (text : JStr) : List JStr :=
  let ms := (reMatchAllAbs urlRegex text).map (fun x => x.2.1)
  (ms.filter (fun url =>
    if reTestFull amountTokenRE url then false
    else if url == "T-Rex".toList || url == "others.".toList ||
        url == "etc.".toList || url == "e.g.".toList then false
    else jsIncludes url ".".toList && !jsIncludes url "@".toList)).map
    (fun url => if ("http".toList).isPrefixOf url then url else "https://".toList ++ url)

/-- Result shape of `cleanInvestorName`. -/
structure InvestorEntry where
  name : JStr
  description : Option JStr
deriving DecidableEq, Repr

/-- The phrase separators tried by `cleanInvestorName`. -/
def descriptionSeparators : List JStr :=
  [" - ", " is ", " a ", " forms ", " builds "].map String.toList

/-- `cleanInvestorName`: split an investor entry into name and trailing
description at the first comma or phrase separator (`none` in the
accumulator's second component stands for the `'comma'` separator
type). -/
def cleanInvestorName (investor : JStr) : InvestorEntry :=
  let commaIndex := jsIndexOfSub investor ",".toList
  let fin := descriptionSeparators.foldl
    (fun (acc : Option Nat × Option JStr) separator =>
      match jsIndexOfSub investor separator with
      | some index =>
        match acc.1 with
        | none => (some index, some separator)
        | some si => if index < si then (some index, some separator) else acc
      | none => acc)
    ((commaIndex, none) : Option Nat × Option JStr)
  match fin with
  | (some separatorIndex, sepStr) =>
    { name := jsTrim (jsSubstring investor 0 separatorIndex)
    , description := some (jsTrim (investor.drop (separatorIndex +
        match sepStr with
        | none => 1
        | some sep => sep.length))) }
  | (none, _) => { name := jsTrim investor, description := none }

/-- The six roundup headline patterns of `isWeeklyRoundup` (all `/i`). -/
def roundupIndicators : List RE :=
  [ seqL [RE.litCI "Top".toList, wsP, RE.plusCls digitChar, wsP, dotStar,
      RE.litCI "Rounds".toList, wsP, RE.litCI "of".toList, wsP,
      RE.litCI "This".toList, wsP, RE.litCI "Week".toList]
  , seqL [RE.litCI "Best".toList, wsP, RE.litCI "Rounds".toList, wsP,
      RE.litCI "Of".toList, wsP, RE.litCI "This".toList, wsP, RE.litCI "Week".toList]
  , seqL [RE.litCI "Notable".toList, wsP, RE.litCI "Rounds".toList, wsP,
      RE.litCI "of".toList, wsP, RE.litCI "This".toList, wsP, RE.litCI "Week".toList]
  , seqL [RE.litCI "Funding".toList, wsP, RE.litCI "Rounds".toList, wsP,
      RE.litCI "Of".toList, wsP, dotStar, RE.litCI "Week".toList]
  , seqL [RE.litCI "Rounds".toList, wsP, RE.litCI "Of".toList, wsP, dotStar,
      RE.litCI "Week".toList]
  , seqL [RE.litCI "Best".toList, wsP, RE.litCI "Funding".toList, wsP,
      RE.litCI "Rounds".toList, wsP, RE.litCI "Of".toList] ]

/-- `isWeeklyRoundup`. -/
def isWeeklyRoundup (text : JStr) : Bool :=
  roundupIndicators.any (fun pattern => reTest pattern text)

/-- The separator class `[-â€“:]` of the roundup line patterns: the
source file's en-dash is mojibake, the three literal characters
U+00E2, U+20AC, U+201C. -/
def roundupSepClass (c : Char) : Bool :=
  c == '-' || c == 'â' || c == '€' || c == '“' || c == ':'

/-- The negated class `[^-â€“:$\n]`. -/
def roundupG1Class (c : Char) : Bool := !(roundupSepClass c || c == '$' || c == '\n')

/-- `/([^-â€“:$\n]+)\s*[-â€“:]\s*\$?([\d\.]+)M?B?/i` (the first three,
textually identical, entries of the `patterns` array). -/
def roundupPatternA : RE :=
  seqL [RE.grp 1 (RE.plusCls roundupG1Class), RE.starCls wsChar, RE.cls roundupSepClass,
    RE.starCls wsChar, RE.opt (ch '$'), RE.grp 2 (RE.plusCls digitDot),
    RE.opt (chCI 'M'), RE.opt (chCI 'B')]

/-- `/([^\s]+)\s+\$?([\d\.]+)M?B?/i` (the fourth pattern). -/
def roundupPatternB : RE :=
  seqL [RE.grp 1 (RE.plusCls (fun c => !wsChar c)), wsP, RE.opt (ch '$'),
    RE.grp 2 (RE.plusCls digitDot), RE.opt (chCI 'M'), RE.opt (chCI 'B')]

/-- The `patterns` array of `parseWeeklyRoundup` in source order. -/
def roundupPatterns : List RE :=
  [roundupPatternA, roundupPatternA, roundupPatternA, roundupPatternB]

/-- `/(\w+)\s+acquired\s+(\w+)(?:\s+for\s+\$?([\d\.]+)B?M?)?/gi`. -/
def acquisitionRegex : RE :=
  seqL [RE.grp 1 (RE.plusCls wordChar), wsP, RE.litCI "acquired".toList, wsP,
    RE.grp 2 (RE.plusCls wordChar),
    RE.opt (seqL [wsP, RE.litCI "for".toList, wsP, RE.opt (ch '$'),
      RE.grp 3 (RE.plusCls digitDot), RE.opt (chCI 'B'), RE.opt (chCI 'M')])]

/-- `/\$\s?([\d\.]+)M?B?/i` (the general-branch amount pattern). -/
def roundupDollarAmountRE : RE :=
  seqL [ch '$', RE.opt (RE.cls wsChar), RE.grp 1 (RE.plusCls digitDot),
    RE.opt (chCI 'M'), RE.opt (chCI 'B')]

/-- `/\d+/`. -/
def digitPlusRE : RE := RE.plusCls digitChar

/-- `/^[A-Z][a-z]*$/`. -/
def upperLowerRE : RE := RE.seq (RE.cls upperChar) (RE.starCls lowerChar)

/-- `/^[^\w]+/` (leading non-word characters, for the line cleanup). -/
def leadingNonWordRE : RE := RE.plusCls (fun c => !wordChar c)

/-- One acquisition entry of the roundup sub-parser, from one match of
`acquisitionRegex`. -/
def roundupAcqOfMatch (x : Nat × JStr × RECaps) : RoundupAcq :=
  let acquirer := jsTrim ((capGet x.2.2 1).getD [])
  let acquired := jsTrim ((capGet x.2.2 2).getD [])
  let amount :=
    match capGet x.2.2 3 with
    | some g3 => some (g3 ++ [if jsIncludes (jsToLower x.2.1) "b".toList then 'B' else 'M'])
    | none => none
  { company := acquired, acquirer := acquirer, amount := amount }

/-- `s.split(/\s+/)`. -/
def jsSplitWs (s : JStr) : List JStr := reSplit wsP s

/-- The per-line body of `parseWeeklyRoundup`'s company/amount loop,
accumulating the parallel `companies`/`amounts` lists. -/
def roundupLineStep (acc : List JStr × List JStr) (line : JStr) : List JStr × List JStr :=
  if line.length < 5 || jsIncludes line "Round".toList ||
      jsIncludes line "Week".toList || jsIncludes line "Total".toList then acc
  else
    let cleanLine := jsTrim (reStripAt0 leadingNonWordRE line)
    match roundupPatterns.findSome? (fun pattern => reFind pattern cleanLine) with
    | some m =>
      let dollarIndex := jsIndexOfSub cleanLine "$".toList
      let company0 := jsTrim ((capGet m.2.2 1).getD [])
      let company1 :=
        if company0 == "T".toList && jsIncludes cleanLine "T-Rex".toList
        then "T-Rex".toList else company0
      let company :=
        match dollarIndex with
        | some di =>
          if 0 < di then
            let possibleFullName := jsTrim (jsSubstring cleanLine 0 di)
            if company1.length < possibleFullName.length && company1.isPrefixOf possibleFullName
            then possibleFullName else company1
          else company1
        | none => company1
      let amountValue := (capGet m.2.2 2).getD []
      let amount := amountValue ++
        [if jsIncludes (jsToLower cleanLine) "b".toList then 'B' else 'M']
      if acc.1.contains company then acc else (acc.1 ++ [company], acc.2 ++ [amount])
    | none =>
      if jsIncludes cleanLine "$".toList && reTest digitPlusRE cleanLine then
        match jsIndexOfSub cleanLine "$".toList with
        | some dollarIndex =>
          if 2 < dollarIndex then
            let possibleCompany := jsTrim (jsSubstring cleanLine 0 dollarIndex)
            let companyWords := jsSplitWs possibleCompany
            let company : JStr :=
              match companyWords with
              | [] => []
              | w0 :: _ =>
                if 2 ≤ companyWords.length &&
                    (w0 == "Alt".toList || w0 == "T".toList || reTestFull upperLowerRE w0)
                then List.intercalate [' '] (companyWords.take 2)
                else w0
            if !company.isEmpty && 1 < company.length then
              match reFind roundupDollarAmountRE cleanLine with
              | some am =>
                let amountValue := (capGet am.2.2 1).getD []
                let amount := amountValue ++
                  [if jsIncludes (jsToLower cleanLine) "b".toList then 'B' else 'M']
                if acc.1.contains company then acc
                else (acc.1 ++ [company], acc.2 ++ [amount])
              | none => acc
            else acc
          else acc
        | none => acc
      else acc

/-- `/^[\d\.]+M?B?$/` (case-sensitive), used by `cleanLinks`. -/
def numTokenRE : RE :=
  seqL [RE.plusCls digitDot, RE.opt (ch 'M'), RE.opt (ch 'B')]

/-- Order-preserving de-duplication (JS `Set` iteration order). -/
def dedupKeepFirst (l : List JStr) : List JStr :=
  l.foldl (fun acc x => if acc.contains x then acc else acc ++ [x]) []

/-- `cleanLinks` of `investmentParser.ts`. -/
def cleanLinks (links : List JStr) : List JStr :=
  let validLinks := links.filter (fun link =>
    if reTestFull numTokenRE link then false
    else if link == "Turtle.Club".toList || link == "Boop.fun".toList ||
        link == "T-Rex".toList then false
    else ("http".toList).isPrefixOf link || jsIncludes link ".io".toList ||
      jsIncludes link ".com".toList || jsIncludes link ".org".toList)
  dedupKeepFirst (validLinks.map (fun link =>
    if ("http".toList).isPrefixOf link then link else "https://".toList ++ link))

/-- `parseWeeklyRoundup`: one roundup record with parallel
company/amount lists.  (The `specialInvestments` local of the source —
the BVNK/Visa probe — is computed but never used in the returned record
and is therefore omitted.) -/
def parseWeeklyRoundup (message : TelegramMessage) : InvestmentData :=
  let text := message.text
  let acquisitions := (reMatchAllAbs acquisitionRegex text).map roundupAcqOfMatch
  let lines := jsSplitChar text '\n'
  let pairs := lines.foldl roundupLineStep ([], [])
  let links := cleanLinks (extractLinks text)
  { company := .list pairs.1
  , amount := some (.list pairs.2)
  , round := none
  , investors := []
  , investorDetails := none
  , type := .roundup
  , date := message.date
  , valuation := none
  , links := some links
  , rawText := text
  , isPartOfRoundup := some true
  , acquisitions := if 0 < acquisitions.length then some acquisitions else none }

/-- The source file's title-line marker: mojibake of a doubled zero-width
space, i.e. the six literal characters U+00E2 U+20AC U+2039, twice. -/
def zwMarker : JStr := ['â', '€', '‹', 'â', '€', '‹']

/-- The capture `([^$\s]+(?:\.[^\s]+)?)` shared by the title patterns and
the first-word fallback. -/
def companyCoreGrp : RE :=
  RE.grp 1 (RE.seq (RE.plusCls (fun c => !(c == '$' || wsChar c)))
    (RE.opt (RE.seq (ch '.') (RE.plusCls (fun c => !wsChar c)))))

/-- `([A-Za-z\-]+(?:\s+[A-Za-z]+)?)` as capture group `n`. -/
def roundWordGrp (n : Nat) : RE :=
  RE.grp n (RE.seq (RE.plusCls alphaDash)
    (RE.opt (RE.seq wsP (RE.plusCls alphaChar))))

/-- `/â€‹â€‹([^$\s]+(?:\.[^\s]+)?)\s+\$?([\d\.]+)M?\s+([A-Za-z\-]+(?:\s+[A-Za-z]+)?)\s+Round/i`. -/
def titleMatchWithAmountRE : RE :=
  seqL [RE.litCI zwMarker, companyCoreGrp, wsP, RE.opt (ch '$'),
    RE.grp 2 (RE.plusCls digitDot), RE.opt (chCI 'M'), wsP, roundWordGrp 3, wsP,
    RE.litCI "Round".toList]

/-- `/â€‹â€‹([^$\s]+(?:\.[^\s]+)?)\s+([A-Za-z\-]+(?:\s+[A-Za-z]+)?)\s+Round/i`. -/
def titleMatchWithRoundRE : RE :=
  seqL [RE.litCI zwMarker, companyCoreGrp, wsP, roundWordGrp 2, wsP,
    RE.litCI "Round".toList]

/-- `/About:\s*\n([^\n]+)/` (case-sensitive). -/
def aboutSectionRE : RE :=
  seqL [RE.lit "About:".toList, RE.starCls wsChar, ch '\n',
    RE.grp 1 (RE.plusCls (fun c => c != '\n'))]

/-- `/^([^\.]+\.[^\s]+|[^\s]+)\s+is\s+/i`. -/
def aboutCompanyRE : RE :=
  seqL [RE.grp 1 (RE.alt
      (seqL [RE.plusCls (fun c => c != '.'), ch '.', RE.plusCls (fun c => !wsChar c)])
      (RE.plusCls (fun c => !wsChar c))),
    wsP, RE.litCI "is".toList, wsP]

/-- `/has acquired\s+([^\s\n]+)/i`. -/
def hasAcquiredRE : RE :=
  seqL [RE.litCI "has acquired".toList, wsP, RE.grp 1 (RE.plusCls (fun c => !wsChar c))]

/-- `/([^\n]+)\s+acquired by:/i`. -/
def acquiredByLineRE : RE :=
  seqL [RE.grp 1 (RE.plusCls (fun c => c != '\n')), wsP, RE.litCI "acquired by:".toList]

/-- `/([^\s\n]+)\s+has acquired/i`. -/
def hasAcquiredBeforeRE : RE :=
  seqL [RE.grp 1 (RE.plusCls (fun c => !wsChar c)), wsP, RE.litCI "has acquired".toList]

/-- `/^â€‹â€‹/` (case-sensitive). -/
def zwMarkerRE : RE := RE.lit zwMarker

/-- `/^([^$\s]+(?:\.[^\s]+)?)/`. -/
def firstWordRE : RE := companyCoreGrp

/-- The first line of a text, as computed by `text.split('\n')[0].trim()`. -/
def firstLineOf (text : JStr) : JStr := jsTrim ((jsSplitChar text '\n').headD [])

/-- The tail of `extractCompanyName`: the acquisition-specific patterns
followed by the first-line fallback (reached when the title patterns and
the `About:` section produced nothing). -/
def extractCompanyNameTail (text : JStr) (firstLine : JStr) (isAcquisition : Bool) : JStr :=
  let acq : Option JStr :=
    if isAcquisition then
      match reFind hasAcquiredRE text with
      | some m => some (jsTrim ((capGet m.2.2 1).getD []))
      | none =>
        match reFind acquiredByLineRE text with
        | some m => some (jsTrim ((capGet m.2.2 1).getD []))
        | none =>
          match reFind hasAcquiredBeforeRE text with
          | some m => some (jsTrim ((capGet m.2.2 1).getD []))
          | none => none
    else none
  match acq with
  | some c => c
  | none =>
    if !firstLine.isEmpty then
      let cleanedFirstLine := jsTrim (reStripAt0 zwMarkerRE firstLine)
      match reMatchAt0 firstWordRE cleanedFirstLine with
      | some fm =>
        let w := (capGet fm.2 1).getD []
        if 1 < w.length then w else []
      | none => []
    else []

/-- `extractCompanyName` of `investmentParser.ts`. -/
def extractCompanyName (text : JStr) (isAcquisition : Bool) : JStr :=
  let firstLine := firstLineOf text
  match reFind titleMatchWithAmountRE firstLine with
  | some m => jsTrim ((capGet m.2.2 1).getD [])
  | none =>
    match reFind titleMatchWithRoundRE firstLine with
    | some m => jsTrim ((capGet m.2.2 1).getD [])
    | none =>
      match reFind aboutSectionRE text with
      | some am =>
        let aboutText := (capGet am.2.2 1).getD []
        match reMatchAt0 aboutCompanyRE aboutText with
        | some cm => jsTrim ((capGet cm.2 1).getD [])
        | none =>
          let firstTerm := (jsSplitWs aboutText).headD []
          if !firstTerm.isEmpty && 1 < firstTerm.length then jsTrim firstTerm
          else extractCompanyNameTail text firstLine isAcquisition
      | none => extractCompanyNameTail text firstLine isAcquisition

/-- The whole-text round-type regexes of `extractRoundType`, in source
order, with the value each yields. -/
def roundTypeMatches : List (RE × JStr) :=
  [ (seqL [RE.litCI "Pre-Seed".toList, wsP, RE.litCI "Round".toList], "Pre-Seed".toList)
  , (seqL [RE.litCI "Seed".toList, wsP, RE.litCI "Round".toList], "Seed".toList)
  , (seqL [RE.litCI "Series".toList, wsP, RE.litCI "A".toList, wsP, RE.litCI "Round".toList], "Series A".toList)
  , (seqL [RE.litCI "Series".toList, wsP, RE.litCI "B".toList, wsP, RE.litCI "Round".toList], "Series B".toList)
  , (seqL [RE.litCI "Series".toList, wsP, RE.litCI "C".toList, wsP, RE.litCI "Round".toList], "Series C".toList)
  , (seqL [RE.litCI "Strategic".toList, wsP, RE.litCI "Round".toList], "Strategic".toList)
  , (seqL [RE.litCI "Funding".toList, wsP, RE.litCI "Round".toList], "Funding".toList)
  , (seqL [RE.litCI "Extended".toList, wsP, RE.litCI "Series".toList, wsP, RE.litCI "A".toList], "Series A".toList)
  , (seqL [RE.litCI "Pre-Series".toList, wsP, RE.litCI "A".toList], "Pre-Series A".toList)
  , (seqL [RE.litCI "Angel".toList, wsP, RE.litCI "Round".toList], "Angel Round".toList)
  , (seqL [RE.litCI "Private".toList, wsP, RE.litCI "Round".toList], "Private Round".toList)
  , (seqL [RE.litCI "Private".toList, wsP, RE.litCI "Sale".toList], "Private Sale".toList)
  , (seqL [RE.litCI "Token".toList, wsP, RE.litCI "Sale".toList], "Token Sale".toList)
  , (seqL [RE.litCI "Series".toList, wsP, RE.litCI "A".toList], "Series A".toList)
  , (seqL [RE.litCI "Series".toList, wsP, RE.litCI "B".toList], "Series B".toList)
  , (seqL [RE.litCI "Series".toList, wsP, RE.litCI "C".toList], "Series C".toList) ]

/-- `extractRoundType`: first-line exact-phrase checks, then the
whole-text regexes, first match wins. -/
def extractRoundType (text : JStr) : Option JStr :=
  let firstLine := firstLineOf text
  if jsIncludes firstLine "Angel Round".toList then some "Angel Round".toList
  else if jsIncludes firstLine "Pre-Seed Round".toList then some "Pre-Seed".toList
  else if jsIncludes firstLine "Seed Round".toList then some "Seed".toList
  else if jsIncludes firstLine "Series A Round".toList then some "Series A".toList
  else if jsIncludes firstLine "Series B Round".toList then some "Series B".toList
  else if jsIncludes firstLine "Series C Round".toList then some "Series C".toList
  else if jsIncludes firstLine "Strategic Round".toList then some "Strategic".toList
  else if jsIncludes firstLine "Funding Round".toList then some "Funding".toList
  else if jsIncludes firstLine "Pre-Series A Round".toList then some "Pre-Series A".toList
  else if jsIncludes firstLine "Private Round".toList then some "Private Round".toList
  else if jsIncludes firstLine "Private Token Sale".toList then some "Token Sale".toList
  else if jsIncludes firstLine "Token Sale".toList then some "Token Sale".toList
  else roundTypeMatches.findSome? (fun m => if reTest m.1 text then some m.2 else none)

/-- The alternation `(M|B)` under `/i`: it matches exactly one of the
four characters `M`, `m`, `B`, `b` and captures it. -/
def mbChar (c : Char) : Bool := c == 'M' || c == 'm' || c == 'B' || c == 'b'

/-- `/\$\s*([\d\.]+)\s*(M|B)/i`. -/
def dollarAmountRE : RE :=
  seqL [ch '$', RE.starCls wsChar, RE.grp 1 (RE.plusCls digitDot), RE.starCls wsChar,
    RE.grp 2 (RE.cls mbChar)]

/-- `/\$\s*([\d\.]+)\s*K/i`. -/
def kAmountRE : RE :=
  seqL [ch '$', RE.starCls wsChar, RE.grp 1 (RE.plusCls digitDot), RE.starCls wsChar,
    chCI 'K']

/-- `extractFundingAmount` of `investmentParser.ts`. -/
def extractFundingAmount (text : JStr) : JStr :=
  let firstLine := firstLineOf text
  match reFind dollarAmountRE firstLine with
  | some m => ((capGet m.2.2 1).getD []) ++ jsToUpper ((capGet m.2.2 2).getD [])
  | none =>
    match reFind kAmountRE firstLine with
    | some m =>
      jsToFixed2 ((jsParseFloat ((capGet m.2.2 1).getD [])).map (fun q => q / 1000)) ++ ['M']
    | none =>
      match reFind dollarAmountRE text with
      | some m => ((capGet m.2.2 1).getD []) ++ jsToUpper ((capGet m.2.2 2).getD [])
      | none =>
        if jsIncludes (jsToLower text) "undisclosed".toList then "Undisclosed".toList
        else "Undisclosed".toList

/-- `/Investor[s]?:/` (case-sensitive). -/
def investorLabelRE : RE := seqL [RE.lit "Investor".toList, RE.opt (ch 's'), ch ':']

/-- The pointer symbol of the section-break splitter: mojibake of an
emoji, the four literal characters U+00F0 U+0178 U+2018 U+2030. -/
def pointerSym : JStr := ['ð', 'Ÿ', '‘', '‰']

/-- `/\n\n|ðŸ‘‰/`. -/
def sectionBreakRE : RE := RE.alt (RE.lit "\n\n".toList) (RE.lit pointerSym)

/-- `/,|\sand\s|\n/`. -/
def investorSepRE : RE :=
  altL [ch ',', seqL [RE.cls wsChar, RE.lit "and".toList, RE.cls wsChar], ch '\n']

/-- `/\(Lead\)/g`. -/
def leadParenRE : RE := RE.lit "(Lead)".toList

/-- `/Acquired by:/i`. -/
def acquiredBySplitRE : RE := RE.litCI "Acquired by:".toList

/-- `/Valuation:\s+\$?([\d\.]+)M/i`. -/
def valuationRE : RE :=
  seqL [RE.litCI "Valuation:".toList, wsP, RE.opt (ch '$'),
    RE.grp 1 (RE.plusCls digitDot), chCI 'M']

/-- Record-field insertion, JS object semantics (overwrite an existing
key in place, else append). -/
def recUpsert (m : List (JStr × JStr)) (k v : JStr) : List (JStr × JStr) :=
  if (m.lookup k).isSome then m.map (fun kv => if kv.1 == k then (k, v) else kv)
  else m ++ [(k, v)]

/-- The keyword pre-filter of `parseInvestmentData` (step 1): the message
is processed further iff one of these four tokens occurs. -/
def prefilterDet (text : JStr) : Bool :=
  jsIncludes text "Round".toList || jsIncludes text "acquired".toList ||
    jsIncludes text "Funding".toList || jsIncludes text "$".toList

/-- `parseInvestmentData` after its keyword pre-filter. -/
def parseInvestmentDataMain (message : TelegramMessage) : Option InvestmentData :=
  let text := message.text
  if isWeeklyRoundup text then some (parseWeeklyRoundup message)
  else if jsIncludes text "Funding Rounds Of".toList &&
      (jsIncludes text "April".toList || jsIncludes text "May".toList ||
        jsIncludes text "June".toList) then
    some (parseWeeklyRoundup message)
  else
    let isAcquisition := jsIncludes text "acquired".toList || jsIncludes text "acquisition".toList
    let type := if isAcquisition then InvType.acquisition else InvType.investment
    let company0 := extractCompanyName text isAcquisition
    if company0.isEmpty then none
    else
      let company :=
        if company0 == "Alt".toList && jsIncludes text "Alt DRX".toList
        then "Alt DRX".toList else company0
      let amount := extractFundingAmount text
      let round0 := extractRoundType text
      let round :=
        if company == "Alt DRX".toList && jsIncludes text "Pre-Series A".toList
        then some "Pre-Series A".toList else round0
      let investorEntries : List InvestorEntry :=
        if jsIncludes text "Investor:".toList || jsIncludes text "Investors:".toList then
          match (reSplit investorLabelRE text)[1]? with
          | some seg =>
            let investorSection := (reSplit sectionBreakRE seg).headD []
            if !investorSection.isEmpty then
              (((reSplit investorSepRE investorSection).map
                  (fun i => jsTrim (reReplaceAllEmpty leadParenRE i))).filter
                (fun i => 1 < i.length)).map cleanInvestorName
            else []
          | none => []
        else if isAcquisition then
          match (reSplit acquiredBySplitRE text)[1]? with
          | some seg =>
            let acquiredBySection := (reSplit sectionBreakRE seg).headD []
            if !acquiredBySection.isEmpty then [cleanInvestorName (jsTrim acquiredBySection)]
            else []
          | none => []
        else []
      let investors := investorEntries.map (·.name)
      let investorDetails := investorEntries.foldl
        (fun acc e =>
          match e.description with
          | some d => recUpsert acc e.name d
          | none => acc) []
      let valuation :=
        match reFind valuationRE text with
        | some m => some ('$' :: ((capGet m.2.2 1).getD []) ++ ['M'])
        | none => none
      let links := cleanLinks (extractLinks text)
      some
        { company := .str company
        , amount := some (.str amount)
        , round := round
        , investors := investors
        , investorDetails := if 0 < investorDetails.length then some investorDetails else none
        , type := type
        , date := message.date
        , valuation := valuation
        , links := if 0 < links.length then some links else none
        , rawText := text
        , isPartOfRoundup := none
        , acquisitions := none }

/-- `parseInvestmentData` of `investmentParser.ts`. -/
def parseInvestmentData (message : TelegramMessage) : Option InvestmentData :=
  if !prefilterDet message.text then none
  else parseInvestmentDataMain message

/-- The acceptance test of `extractInvestmentData`:
`typeof company === 'string' ? company : company.length > 0` under JS
truthiness. -/
def detCompanyKeep : StrOrList → Bool
  | .str s => !s.isEmpty
  | .list l => 0 < l.length

/-- `extractInvestmentData`: per-message parsing with the company
acceptance test; a per-message exception is swallowed (`continue`),
which the total model needs no separate case for. -/
def extractInvestmentData (messages : List TelegramMessage) : List InvestmentData :=
  messages.foldr
    (fun message acc =>
      match parseInvestmentData message with
      | some result => if detCompanyKeep result.company then result :: acc else acc
      | none => acc) []

end InvestmentParser

/-! ### `telegram.ts` — retry controller and AI extraction engine -/

namespace Telegram

/-- JSON values: the possible results of `JSON.parse` on the extracted
substring of a model response. -/
inductive JsonValue where
  | null : JsonValue
  | bool : Bool → JsonValue
  | num : ℚ → JsonValue
  | str : JStr → JsonValue
  | arr : List JsonValue → JsonValue
  | obj : List (JStr × JsonValue) → JsonValue

/-- JS truthiness of an optional JSON value (`none` = `undefined`). -/
def truthy : Option JsonValue → Bool
  | none => false
  | some .null => false
  | some (.bool b) => b
  | some (.num q) => decide (q ≠ 0)
  | some (.str s) => !s.isEmpty
  | some (.arr _) => true
  | some (.obj _) => true

/-- JS property read `v.key`: `undefined` (`none`) on a missing key or a
non-object, a `TypeError` (`Except.error`) on `null`. -/
def jsGetField : JsonValue → JStr → Except Unit (Option JsonValue)
  | .null, _ => .error ()
  | .obj fields, key => .ok (fields.lookup key)
  | _, _ => .ok none

/-- An entry of `acquisitionsInRoundup` as built by the normalizer. -/
structure AcqEntry where
  company : Option JsonValue
  acquirer : Option JsonValue
  amount : Option JsonValue

/-- The `InvestmentData` interface of `src/types/index.ts`, as populated
by `standardizeInvestmentData`.  Dynamically-typed fields keep their
runtime `JsonValue`; absent fields are `none`. -/
structure InvestmentData where
  company : JsonValue
  type : InvestmentParser.InvType
  date : JStr
  rawText : JStr
  amount : Option JsonValue := none
  round : Option JsonValue := none
  investors : Option (List JsonValue) := none
  acquirer : Option JsonValue := none
  about : Option JsonValue := none
  valuation : Option JsonValue := none
  links : Option (List JStr) := none
  isPartOfRoundup : Option Bool := none
  acquisitionsInRoundup : Option (List AcqEntry) := none

/-- `/^[A-Za-z0-9\.-]+$/`. -/
def identTokenRE : RE := RE.plusCls (fun c => c.isAlphanum || c == '.' || c == '-')

/-- `cleanLinks` of `telegram.ts` (filter non-URLs, then prefix
`https://` when a scheme is missing). -/
def cleanLinks (links : List JsonValue) : List JStr :=
  (links.filterMap (fun link =>
    match link with
    | .str s =>
      if s.isEmpty then none
      else if !(("http".toList).isPrefixOf s) && !jsIncludes s ".com".toList &&
          !jsIncludes s ".io".toList && !jsIncludes s ".org".toList &&
          !jsIncludes s ".net".toList then none
      else if reTestFull InvestmentParser.numTokenRE s then none
      else if reTestFull identTokenRE s && !jsIncludes s ".".toList then none
      else some s
    | _ => none)).map (fun link =>
      if ("http".toList).isPrefixOf link then link else "https://".toList ++ link)

/-- One roundup amount entry:
`typeof amount !== 'string' ? amount : amount.trim().replace('$','')`. -/
def stdAmountElem : JsonValue → JsonValue
  | .str s => .str (jsReplaceFirstEmpty (jsTrim s) "$".toList)
  | v => v

/-- `.replace('$','')` called on a dynamically-typed value: a `TypeError`
unless it is a string. -/
def jsStrReplaceDollar : JsonValue → Except Unit JStr
  | .str s => .ok (jsReplaceFirstEmpty s "$".toList)
  | _ => .error ()

/-- One entry of the `acquisitionsInRoundup` mapping
(`{company: acq.company, acquirer: acq.acquirer, amount: acq.amount ? acq.amount.replace('$','') : undefined}`). -/
def mapAcqEntry (acq : JsonValue) : Except Unit AcqEntry := do
  let c ← jsGetField acq "company".toList
  let a ← jsGetField acq "acquirer".toList
  let am ← jsGetField acq "amount".toList
  let amount ←
    if truthy am then do
      let s ← jsStrReplaceDollar (am.getD .null)
      pure (some (JsonValue.str s))
    else pure none
  pure { company := c, acquirer := a, amount := amount }

/-- The common tail of `standardizeInvestmentData`: the optional `about`,
`valuation` and `links` fields. -/
def stdCommonTail (data : JsonValue) (base : InvestmentData) :
    Except Unit InvestmentData := do
  let aboutF ← jsGetField data "about".toList
  let base := if truthy aboutF then { base with about := aboutF } else base
  let valF ← jsGetField data "valuation".toList
  let valNew : JsonValue :=
    match valF.getD .null with
    | .str s => .str (jsReplaceFirstEmpty s "$".toList)
    | v => v
  let base := if truthy valF then { base with valuation := some valNew } else base
  let linksF ← jsGetField data "links".toList
  let base :=
    match linksF with
    | some (.arr ls) =>
      if 0 < ls.length then { base with links := some (cleanLinks ls) } else base
    | _ => base
  pure base

/-- The transaction-type determination of `standardizeInvestmentData`
(`isRoundup`, else `data.acquisitions`/`data.acquirer`/the raw text). -/
def stdType (data : JsonValue) (rawText : JStr) (isRoundup : Bool) :
    Except Unit InvestmentParser.InvType :=
  if isRoundup then pure InvestmentParser.InvType.roundup
  else do
    let acqs ← jsGetField data "acquisitions".toList
    if truthy acqs then pure InvestmentParser.InvType.acquisition
    else do
      let acquirerF ← jsGetField data "acquirer".toList
      if truthy acquirerF then pure InvestmentParser.InvType.acquisition
      else if jsIncludes (jsToLower rawText) "acquired".toList ||
          jsIncludes (jsToLower rawText) "acquisition".toList then
        pure InvestmentParser.InvType.acquisition
      else pure InvestmentParser.InvType.investment

/-- The body of `standardizeInvestmentData` once the transaction type is
determined: the per-type normalization followed by the common tail. -/
def stdBody (data : JsonValue) (rawText date : JStr)
    (type : InvestmentParser.InvType) : Except Unit InvestmentData :=
  let base : InvestmentData :=
    { company := .str [], type := type, date := date, rawText := rawText }
  if type == InvestmentParser.InvType.roundup then do
    let c ← jsGetField data "company".toList
    let cz ←
      match c with
      | some (.arr cs) =>
        if 0 < cs.length then do
          let am ← jsGetField data "amount".toList
          let amount :=
            match am with
            | some (.arr as) =>
              if 0 < as.length then some (JsonValue.arr (as.map stdAmountElem))
              else none
            | _ => none
          pure (JsonValue.arr cs, amount)
        else pure (JsonValue.str "Weekly Investment Roundup".toList, none)
      | _ => pure (JsonValue.str "Weekly Investment Roundup".toList, none)
    let acqsF ← jsGetField data "acquisitions".toList
    let acquisitionsInRoundup ←
      match acqsF with
      | some (.arr acqs) =>
        if 0 < acqs.length then do
          let entries ← acqs.mapM mapAcqEntry
          pure (some entries)
        else pure none
      | _ => pure none
    stdCommonTail data
      { base with
        company := cz.1,
        amount := cz.2,
        acquisitionsInRoundup := acquisitionsInRoundup,
        isPartOfRoundup := some true }
  else if type == InvestmentParser.InvType.acquisition then do
    let c ← jsGetField data "company".toList
    let company := if truthy c then c.getD .null else JsonValue.str []
    let acqsF ← jsGetField data "acquisitions".toList
    let isObjLike :=
      match acqsF with
      | some (.arr _) => true
      | some (.obj _) => true
      | _ => false
    let az ←
      if truthy acqsF && isObjLike then
        match acqsF.getD .null with
        | .arr acqs =>
          if 0 < acqs.length then do
            let a0 := acqs.headD .null
            let acquirerF ← jsGetField a0 "acquirer".toList
            let amF ← jsGetField a0 "amount".toList
            let amount ←
              if truthy amF then do
                let s ← jsStrReplaceDollar (amF.getD .null)
                pure (some (JsonValue.str s))
              else pure none
            pure (acquirerF, amount)
          else pure (none, none)
        | v => do
          let acquirerF ← jsGetField v "acquirer".toList
          let amF ← jsGetField v "amount".toList
          let amount ←
            if truthy amF then do
              let s ← jsStrReplaceDollar (amF.getD .null)
              pure (some (JsonValue.str s))
            else pure none
          pure (acquirerF, amount)
      else do
        let acquirerF ← jsGetField data "acquirer".toList
        let amF ← jsGetField data "amount".toList
        let amount :=
          if truthy amF then some
            (match amF.getD .null with
             | .str s => JsonValue.str (jsReplaceFirstEmpty s "$".toList)
             | v => v)
          else none
        pure (acquirerF, amount)
    stdCommonTail data { base with company := company, acquirer := az.1, amount := az.2 }
  else do
    let c ← jsGetField data "company".toList
    let company := if truthy c then c.getD .null else JsonValue.str []
    let amF ← jsGetField data "amount".toList
    let amount :=
      if truthy amF then some
        (match amF.getD .null with
         | .str s => JsonValue.str (jsReplaceFirstEmpty s "$".toList)
         | v => v)
      else none
    let rF ← jsGetField data "round".toList
    let round := if truthy rF then rF else none
    let invF ← jsGetField data "investors".toList
    let investors :=
      match invF with
      | some (.arr l) => some l
      | _ => none
    stdCommonTail data
      { base with
          company := company,
          amount := amount,
          round := round,
          investors := investors }

/-- `standardizeInvestmentData` of `telegram.ts`: normalize the parsed
model output into the canonical record; an `Except.error` models a
runtime `TypeError` escaping the function (caught by the caller). -/
def standardizeInvestmentData (data : JsonValue) (rawText : JStr) (date : JStr)
    (isRoundup : Bool) : Except Unit InvestmentData := do
  let type ← stdType data rawText isRoundup
  stdBody data rawText date type

/-- The keyword pre-filter of `extractInvestmentWithGemini`. -/
def prefilterAI (text : JStr) : Bool :=
  jsIncludes text "Round".toList || jsIncludes text "raised".toList ||
    jsIncludes text "acquired".toList || jsIncludes text "Funding".toList ||
    jsIncludes text "$".toList || jsIncludes text "investment".toList

/-- `/Top\s+\d+|Best\s+Rounds|Notable\s+Rounds|This\s+Week/i`. -/
def gemIsRoundupRE : RE :=
  altL
    [ seqL [RE.litCI "Top".toList, InvestmentParser.wsP, RE.plusCls digitChar]
    , seqL [RE.litCI "Best".toList, InvestmentParser.wsP, RE.litCI "Rounds".toList]
    , seqL [RE.litCI "Notable".toList, InvestmentParser.wsP, RE.litCI "Rounds".toList]
    , seqL [RE.litCI "This".toList, InvestmentParser.wsP, RE.litCI "Week".toList] ]

/-- `response.lastIndexOf("}") + 1`: one past the last closing brace,
`0` (JS `-1 + 1`) when there is none. -/
def gemJsonEnd (response : JStr) : Nat :=
  match jsLastIndexOfChar response '\x7d' with
  | some j => j + 1
  | none => 0

/-- `extractInvestmentWithGemini`: pre-filter, then (the generation call
being external, its outcome `apiResult` and the JSON parser are
parameters) locate the first `{` and the last `}`, parse the substring
and normalize; every failure path yields `none` (the message is
dropped). -/
def extractInvestmentWithGemini (message : InvestmentParser.TelegramMessage)
    (apiResult : Except Unit JStr) (jsonParse : JStr → Option JsonValue) :
    Option InvestmentData :=
  let text := message.text
  if !prefilterAI text then none
  else
    let isRoundup := reTest gemIsRoundupRE text
    match apiResult with
    | .error _ => none
    | .ok response =>
      match jsIndexOfSub response ['\x7b'] with
      | none => none
      | some jsonStart =>
        let jsonEnd := gemJsonEnd response
        if jsonEnd ≤ jsonStart then none
        else
          match jsonParse (jsSubstring response jsonStart jsonEnd) with
          | none => none
          | some extractedData =>
            match standardizeInvestmentData extractedData text message.date isRoundup with
            | .ok r => some r
            | .error _ => none

/-- The acceptance test of `extractInvestmentsWithAI`: `company` is a
non-empty string or a non-empty array. -/
def companyAccept : JsonValue → Bool
  | .str s => 0 < s.length
  | .arr l => 0 < l.length
  | _ => false

/-- `extractInvestmentsWithAI`: drive the per-message extraction over the
message list and keep the accepted records (batching and pacing delays
do not affect the produced list; a per-message failure contributes
nothing). -/
def extractInvestmentsWithAI (messages : List InvestmentParser.TelegramMessage)
    (api : InvestmentParser.TelegramMessage → Except Unit JStr)
    (jsonParse : JStr → Option JsonValue) : List InvestmentData :=
  messages.foldr
    (fun message acc =>
      match extractInvestmentWithGemini message (api message) jsonParse with
      | some result => if companyAccept result.company then result :: acc else acc
      | none => acc) []

/-- A JS `Error` as classified by the retry controller. -/
structure JsError where
  message : JStr
deriving DecidableEq, Repr

/-- The retryable-error classification of `retry`. -/
def isRetryableErr (e : JsError) : Bool :=
  jsIncludes e.message "503".toList || jsIncludes e.message "overloaded".toList ||
    jsIncludes e.message "UNAVAILABLE".toList

/-- `Math.random() * 0.3 + 0.85` for a drawn `r ∈ [0, 1)`. -/
def jitterOf (r : ℚ) : ℚ := r * (3 / 10) + 17 / 20

/-- The loop of `retry`: `op i` is the outcome of attempt `i`, `rand i`
the random draw after a failure of attempt `i`; returns the final
outcome and the list of back-off delays slept.  The loop throws as soon
as `retries > maxRetries`, so `fuel = maxRetries` bounds the recursion
without changing it. -/
def retryGo {α : Type} (op : Nat → Except JsError α) (rand : Nat → ℚ)
    (maxRetries : Nat) (maxDelay : ℚ) :
    Nat → Nat → ℚ → Except JsError α × List ℚ
  | 0, i, _ =>
    match op i with
    | .ok v => (.ok v, [])
    | .error e => (.error e, [])
  | fuel + 1, i, delay =>
    match op i with
    | .ok v => (.ok v, [])
    | .error e =>
      if maxRetries < i + 1 || !isRetryableErr e then (.error e, [])
      else
        let d := min (delay * (3 / 2) * jitterOf (rand i)) maxDelay
        let res := retryGo op rand maxRetries maxDelay fuel (i + 1) d
        (res.1, d :: res.2)

/-- `retry` of `telegram.ts`. -/
def retry {α : Type} (op : Nat → Except JsError α) (rand : Nat → ℚ)
    (maxRetries : Nat) (initialDelay maxDelay : ℚ) : Except JsError α × List ℚ :=
  retryGo op rand maxRetries maxDelay maxRetries 0 initialDelay

/-- `retry` applied with the source's default parameters
(`maxRetries = 5`, `initialDelay = 2000` ms, `maxDelay = 60000` ms). -/
def retryWithDefaults {α : Type} (op : Nat → Except JsError α) (rand : Nat → ℚ) :
    Except JsError α × List ℚ :=
  retry op rand 5 2000 60000

end Telegram

/-! ### `tokenManager.ts` — the token-bucket rate limiter

The class state is passed explicitly; `Date.now()` readings become the
parameters `t1` (at the first refill) and `t2` (at the refill after the
wait).  Times are in milliseconds. -/

namespace TokenManager

/-- The mutable state of `TokenRateLimiter`. -/
structure TokenRateLimiter where
  tokensPerMinute : Nat
  tokenBudget : Int
  lastRefillTime : Nat
deriving DecidableEq, Repr

/-- The constructor `new TokenRateLimiter(tokensPerMinute)` at clock
reading `now`. -/
def mkTokenRateLimiter (tokensPerMinute : Nat) (now : Nat) : TokenRateLimiter :=
  { tokensPerMinute := tokensPerMinute
  , tokenBudget := tokensPerMinute
  , lastRefillTime := now }

/-- `refillTokens` at clock reading `now`: add
`floor(elapsedMs * tokensPerMinute / 60000)` tokens, capped at
`tokensPerMinute`; when nothing is added the state (including
`lastRefillTime`) is untouched.  (A clock reading before
`lastRefillTime` adds nothing, as in the source; natural subtraction
models this.) -/
def refillTokens (s : TokenRateLimiter) (now : Nat) : TokenRateLimiter :=
  let elapsedMs := now - s.lastRefillTime
  let tokensToAdd := elapsedMs * s.tokensPerMinute / 60000
  if 0 < tokensToAdd then
    { s with
        tokenBudget := min (s.tokenBudget + (tokensToAdd : Int)) (s.tokensPerMinute : Int),
        lastRefillTime := now }
  else s

/-- `Math.ceil((tokens - tokenBudget) * 60000 / tokensPerMinute)`, the
wait computed when `tokens > tokenBudget`. -/
def timeToWait (s : TokenRateLimiter) (tokens : Nat) : Nat :=
  (((tokens : Int) - s.tokenBudget).toNat * 60000 + s.tokensPerMinute - 1) /
    s.tokensPerMinute

/-- `consumeTokens(tokens)`: refill at `t1`; if the budget is short,
wait (the caller resumes at `t2`) and refill again; then subtract
`tokens`. -/
def consumeTokens (s : TokenRateLimiter) (tokens : Nat) (t1 t2 : Nat) :
    TokenRateLimiter :=
  let s1 := refillTokens s t1
  if s1.tokenBudget < (tokens : Int) then
    let s2 := refillTokens s1 t2
    { s2 with tokenBudget := s2.tokenBudget - (tokens : Int) }
  else
    { s1 with tokenBudget := s1.tokenBudget - (tokens : Int) }

/-- One call of a `consumeTokens` trace: the requested tokens and the
two clock readings. -/
structure TokenRequest where
  tokens : Nat
  t1 : Nat
  t2 : Nat
deriving DecidableEq, Repr

/-- Run a trace of `consumeTokens` calls. -/
def runConsume (s : TokenRateLimiter) (reqs : List TokenRequest) : TokenRateLimiter :=
  reqs.foldl (fun st r => consumeTokens st r.tokens r.t1 r.t2) s

/-- Timing soundness of one call against the state it runs in: the clock
has not run backwards, and the wait prescribed by the source was
honoured (`setTimeout` resumes no earlier than requested). -/
def ReqTimingOk (s : TokenRateLimiter) (r : TokenRequest) : Prop :=
  s.lastRefillTime ≤ r.t1 ∧
    r.t1 + timeToWait (refillTokens s r.t1) r.tokens ≤ r.t2

/-- A well-timed trace of positive, within-capacity requests. -/
inductive ValidRun : TokenRateLimiter → List TokenRequest → Prop
  | nil (s : TokenRateLimiter) : ValidRun s []
  | cons {s : TokenRateLimiter} {r : TokenRequest} {rs : List TokenRequest}
      (hpos : 0 < r.tokens) (hcap : r.tokens ≤ s.tokensPerMinute)
      (htime : ReqTimingOk s r)
      (htail : ValidRun (consumeTokens s r.tokens r.t1 r.t2) rs) :
      ValidRun s (r :: rs)

/-- The budget invariant of the spec's `RateBudget`. -/
def BudgetInv (s : TokenRateLimiter) : Prop :=
  0 ≤ s.tokenBudget ∧ s.tokenBudget ≤ (s.tokensPerMinute : Int)

end TokenManager

/-! ### `checkpointSystem.ts` — durable batch progress

The filesystem is modelled as an association list from paths to stored
checkpoint records (`storageWrite` shadows older entries, `lookup` sees
the newest); `new Date().toISOString()` readings are string
parameters. -/

namespace CheckpointSystem

/-- One entry of the checkpoint error log. -/
structure CheckpointError where
  batch : Int
  message : JStr
  time : JStr
deriving DecidableEq, Repr

/-- The persisted `CheckpointData` record. -/
structure CheckpointData where
  channel : JStr
  totalProcessed : Nat
  lastBatchIndex : Int
  lastProcessedTime : JStr
  batchSize : Nat
  errors : List CheckpointError
deriving DecidableEq, Repr

/-- Durable storage: path ↦ stored record, newest first. -/
abbrev Storage := List (JStr × CheckpointData)

/-- `fs.writeFileSync` of a serialized record (serialization is the
identity in this model: the records round-trip through JSON). -/
def storageWrite (st : Storage) (path : JStr) (d : CheckpointData) : Storage :=
  (path, d) :: st

/-- The in-memory manager: its checkpoint path and current data. -/
structure CheckpointManager where
  checkpointPath : JStr
  data : CheckpointData
deriving DecidableEq, Repr

/-- `channel.replace(/[^a-z0-9]/gi, '_').toLowerCase()`. -/
def safeChannel (channel : JStr) : JStr :=
  (channel.map (fun c => if c.isAlphanum then c else '_')).map Char.toLower

/-- The checkpoint file path for a channel
(`./checkpoints/<safeChannel>_checkpoint.json`). -/
def checkpointPathOf (channel : JStr) : JStr :=
  "./checkpoints/".toList ++ safeChannel channel ++ "_checkpoint.json".toList

/-- `saveCheckpoint`. -/
def saveCheckpoint (m : CheckpointManager) (st : Storage) : Storage :=
  storageWrite st m.checkpointPath m.data

/-- The constructor: load the persisted state if the file exists, else
initialize (`lastBatchIndex = -1`, nothing processed, empty error log)
and persist immediately. -/
def mkCheckpointManager (st : Storage) (channel : JStr) (batchSize : Nat)
    (now : JStr) : CheckpointManager × Storage :=
  let path := checkpointPathOf channel
  match st.lookup path with
  | some d => ({ checkpointPath := path, data := d }, st)
  | none =>
    let d : CheckpointData :=
      { channel := channel
      , totalProcessed := 0
      , lastBatchIndex := -1
      , lastProcessedTime := now
      , batchSize := batchSize
      , errors := [] }
    let m : CheckpointManager := { checkpointPath := path, data := d }
    (m, saveCheckpoint m st)

/-- `getNextBatchIndex`. -/
def getNextBatchIndex (m : CheckpointManager) : Int := m.data.lastBatchIndex + 1

/-- `getTotalProcessed`. -/
def getTotalProcessed (m : CheckpointManager) : Nat := m.data.totalProcessed

/-- `updateCheckpoint(batchIndex, messagesProcessed)` at time `now`. -/
def updateCheckpoint (m : CheckpointManager) (st : Storage) (batchIndex : Int)
    (messagesProcessed : Nat) (now : JStr) : CheckpointManager × Storage :=
  let m' : CheckpointManager :=
    { m with data :=
      { m.data with
          lastBatchIndex := batchIndex,
          totalProcessed := m.data.totalProcessed + messagesProcessed,
          lastProcessedTime := now } }
  (m', saveCheckpoint m' st)

/-- `recordError(batchIndex, error)` at time `now`; `errorMsg` is the
`error.toString()` rendering. -/
def recordError (m : CheckpointManager) (st : Storage) (batchIndex : Int)
    (errorMsg : JStr) (now : JStr) : CheckpointManager × Storage :=
  let m' : CheckpointManager :=
    { m with data :=
      { m.data with errors :=
          m.data.errors ++ [{ batch := batchIndex, message := errorMsg, time := now }] } }
  (m', saveCheckpoint m' st)

/-- `reset()` at time `now`. -/
def reset (m : CheckpointManager) (st : Storage) (now : JStr) :
    CheckpointManager × Storage :=
  let m' : CheckpointManager :=
    { m with data :=
      { m.data with
          totalProcessed := 0,
          lastBatchIndex := -1,
          lastProcessedTime := now,
          errors := [] } }
  (m', saveCheckpoint m' st)

end CheckpointSystem

/-! ### Capture soundness of the matcher

`GroupOf r n cs` records, purely structurally, that a capture numbered
`n` with content `cs` can only have been produced by a `grp n body`
sub-pattern of `r` whose body matched `cs`; `Matches r cs` says the body
can match `cs` somewhere. -/

/-- A body of regex `r` can consume exactly `cs` in some context. -/
def Matches (r : RE) (cs : JStr) : Prop :=
  ∃ prev s caps, ((cs, caps) : JStr × RECaps) ∈ mrun r prev s

/-- Structural localization of a numbered capture inside a pattern. -/
def GroupOf : RE → Nat → JStr → Prop
  | .grp m r, n, cs => (m = n ∧ Matches r cs) ∨ GroupOf r n cs
  | .seq a b, n, cs => GroupOf a n cs ∨ GroupOf b n cs
  | .alt a b, n, cs => GroupOf a n cs ∨ GroupOf b n cs
  | .opt r, n, cs => GroupOf r n cs
  | _, _, _ => False

/-- Group `n` lies on every path of the pattern (not under `?` or `|`),
so every match carries a capture numbered `n`. -/
def MustCap : RE → Nat → Prop
  | .grp m r, n => m = n ∨ MustCap r n
  | .seq a b, n => MustCap a n ∨ MustCap b n
  | _, _ => False

/-! ### Spec-side predicates for the claims -/

/-- The number of literal `'$'` characters in a string. -/
def countDollar (s : JStr) : Nat := s.countP (· == '$')

/-- The format `^[0-9]+(\.[0-9]+)?[MB]$` stated by the specification for
non-roundup amounts; written directly from the specification's regex. -/
def specAmountFormat (s : JStr) : Bool :=
  let intPart := s.takeWhile (digitChar ·)
  let rest := s.drop intPart.length
  !intPart.isEmpty &&
    (match rest with
     | [m] => m == 'M' || m == 'B'
     | '.' :: rest2 =>
       let frac := rest2.takeWhile (digitChar ·)
       !frac.isEmpty &&
         (match rest2.drop frac.length with
          | [m] => m == 'M' || m == 'B'
          | _ => false)
     | _ => false)

namespace Telegram

mutual

/-- Every string occurring anywhere inside a JSON value contains at most
one `'$'` (the hypothesis under which a single `replace('$', '')`
de-dollars a value). -/
def stringsOk : JsonValue → Bool
  | .null => true
  | .bool _ => true
  | .num _ => true
  | .str s => countDollar s ≤ 1
  | .arr l => stringsOkList l
  | .obj fs => stringsOkFields fs

/-- `stringsOk` over an array's elements. -/
def stringsOkList : List JsonValue → Bool
  | [] => true
  | v :: vs => stringsOk v && stringsOkList vs

/-- `stringsOk` over an object's field values. -/
def stringsOkFields : List (JStr × JsonValue) → Bool
  | [] => true
  | kv :: kvs => stringsOk kv.2 && stringsOkFields kvs

end

/-- The monetary `'$'`-freedom the AI normalizer actually establishes on
a record: string-typed `amount` and `valuation`, the string elements of
a roundup amount array, and the (always string-typed) nested acquisition
amounts. -/
def MonetaryDollarFree (r : InvestmentData) : Prop :=
  (∀ s, r.amount = some (.str s) → countDollar s = 0) ∧
  (∀ l, r.amount = some (.arr l) → r.type = InvestmentParser.InvType.roundup →
    ∀ s, JsonValue.str s ∈ l → countDollar s = 0) ∧
  (∀ s, r.valuation = some (.str s) → countDollar s = 0) ∧
  (∀ entries, r.acquisitionsInRoundup = some entries →
    ∀ a ∈ entries, ∀ s, a.amount = some (.str s) → countDollar s = 0)

end Telegram

namespace InvestmentParser

/-- `'$'`-freedom of the deterministic engine's amounts: the scalar
amount, every roundup amount entry, and every nested acquisition
amount. -/
def DetAmountsDollarFree (r : InvestmentData) : Prop :=
  (∀ s, r.amount = some (.str s) → '$' ∉ s) ∧
  (∀ l, r.amount = some (.list l) → ∀ s ∈ l, '$' ∉ s) ∧
  (∀ acqs, r.acquisitions = some acqs → ∀ a ∈ acqs, ∀ v, a.amount = some v → '$' ∉ v)

/-- Non-emptiness of an emitted record's `company` field. -/
def CompanyNonEmpty (r : InvestmentData) : Prop :=
  match r.company with
  | .str s => s ≠ []
  | .list l => l ≠ []

end InvestmentParser

namespace Telegram

/-- The delay sequence of the retry controller: `retryDelays rand d0 dM j`
is the value of the mutable `delay` just before attempt `j`
(`j = 0`: the initial delay; each failed attempt `j` updates it to
`min(delay * 1.5 * jitter(rand j), maxDelay)`). -/
def retryDelays (rand : Nat → ℚ) (initialDelay maxDelay : ℚ) : Nat → ℚ
  | 0 => initialDelay
  | j + 1 =>
    min (retryDelays rand initialDelay maxDelay j * (3 / 2) * jitterOf (rand j)) maxDelay

end Telegram

/-! ### Concrete scenario inputs -/

namespace Scenarios

open InvestmentParser Telegram TokenManager CheckpointSystem

/-- A funding announcement with an explicit `Valuation:` line. -/
def msgValuation : TelegramMessage :=
  { date := "2025-04-01T00:00:00.000Z".toList
  , text := "Acme Seed Round\nValuation: $10M".toList }

/-- A funding announcement whose only dollar token is `$.5M`. -/
def msgDotAmount : TelegramMessage :=
  { date := "2025-04-02T00:00:00.000Z".toList
  , text := "Acme Funding\n$.5M".toList }

/-- A message containing `raised` but none of the deterministic
pre-filter's tokens. -/
def msgRaisedOnly : TelegramMessage :=
  { date := "2025-04-03T00:00:00.000Z".toList
  , text := "Acme raised a lot".toList }

/-- A roundup headline message (passes both engines' roundup tests). -/
def msgRoundupHead : TelegramMessage :=
  { date := "2025-04-04T00:00:00.000Z".toList
  , text := "Top 5 Rounds of This Week".toList }

/-- A two-line deterministic roundup message. -/
def msgRoundupTwo : TelegramMessage :=
  { date := "2025-04-05T00:00:00.000Z".toList
  , text := "Top 5 Rounds of This Week:\nAcme - $10M\nBeta - $2.5M".toList }

/-- A plain single-investment message for the AI engine. -/
def msgAIPlain : TelegramMessage :=
  { date := "2025-04-06T00:00:00.000Z".toList
  , text := "Foo raised funds".toList }

/-- A model response whose company/amount arrays have different
lengths. -/
def respMismatch : JStr :=
  "\x7b\"company\":[\"A\",\"B\"],\"amount\":[\"10M\"]\x7d".toList

/-- The JSON value of `respMismatch`. -/
def dataMismatch : JsonValue :=
  .obj [("company".toList, .arr [.str "A".toList, .str "B".toList]),
        ("amount".toList, .arr [.str "10M".toList])]

/-- A parser recognizing exactly `respMismatch`. -/
def jpMismatch : JStr → Option JsonValue :=
  fun s => if s == respMismatch then some dataMismatch else none

/-- A model response with scalar fields. -/
def respPlain : JStr := "\x7b\"company\":\"Foo\"\x7d".toList

/-- The JSON value of `respPlain`. -/
def dataPlain : JsonValue := .obj [("company".toList, .str "Foo".toList)]

/-- A parser recognizing exactly `respPlain`. -/
def jpPlain : JStr → Option JsonValue :=
  fun s => if s == respPlain then some dataPlain else none

/-- A model response containing no JSON object at all. -/
def respNoBrace : JStr := "I could not find any funding data.".toList

/-- A model response with a dollar-prefixed amount and valuation. -/
def dataDollar : JsonValue :=
  .obj [("company".toList, .str "Foo".toList),
        ("amount".toList, .str "$5M".toList),
        ("valuation".toList, .str "$100M".toList)]

/-- A model response value whose company/amount arrays have equal
lengths. -/
def dataEqual : JsonValue :=
  .obj [("company".toList, .arr [.str "A".toList, .str "B".toList]),
        ("amount".toList, .arr [.str "$10M".toList, .str "2M".toList])]

/-- The record the AI normalizer produces for `dataEqual` over a raw
text `"t"` and date `"d"` in roundup mode. -/
def recEqualAI : Telegram.InvestmentData :=
  { company := .arr [.str "A".toList, .str "B".toList]
  , type := .roundup
  , date := "d".toList
  , rawText := "t".toList
  , amount := some (.arr [.str "10M".toList, .str "2M".toList])
  , isPartOfRoundup := some true }

/-- A fresh rate limiter with the default capacity, constructed at time
0. -/
def limiter0 : TokenRateLimiter := mkTokenRateLimiter 60000 0

/-- A single over-capacity request against `limiter0`, waiting exactly
the prescribed time. -/
def reqOverCap : TokenRequest := { tokens := 120000, t1 := 0, t2 := 60000 }

/-- A well-timed two-request trace against `limiter0`. -/
def reqsOk : List TokenRequest :=
  [ { tokens := 30000, t1 := 0, t2 := 0 }
  , { tokens := 60000, t1 := 10, t2 := 40010 } ]

/-- An operation that fails retryably once, then succeeds. -/
def opOnce503 : Nat → Except JsError Nat :=
  fun i => if i == 0 then .error { message := "503 Service Unavailable".toList } else .ok 42

/-- A deterministic random source (always 0, i.e. jitter `0.85`). -/
def rand0 : Nat → ℚ := fun _ => 0

/-- The record the deterministic engine produces for `msgValuation`. -/
def recValuation : InvestmentParser.InvestmentData :=
  { company := .str "Acme".toList
  , amount := some (.str "10M".toList)
  , round := some "Seed".toList
  , investors := []
  , investorDetails := none
  , type := .investment
  , date := msgValuation.date
  , valuation := some "$10M".toList
  , links := none
  , rawText := msgValuation.text
  , isPartOfRoundup := none
  , acquisitions := none }

/-- The record the deterministic engine produces for `msgDotAmount`. -/
def recDotAmount : InvestmentParser.InvestmentData :=
  { company := .str "Acme".toList
  , amount := some (.str ".5M".toList)
  , round := none
  , investors := []
  , investorDetails := none
  , type := .investment
  , date := msgDotAmount.date
  , valuation := none
  , links := none
  , rawText := msgDotAmount.text
  , isPartOfRoundup := none
  , acquisitions := none }

/-- The record the deterministic engine produces for `msgRoundupTwo`. -/
def recRoundupTwo : InvestmentParser.InvestmentData :=
  { company := .list ["Acme -".toList, "Beta -".toList]
  , amount := some (.list ["10M".toList, "2.5B".toList])
  , round := none
  , investors := []
  , investorDetails := none
  , type := .roundup
  , date := msgRoundupTwo.date
  , valuation := none
  , links := some []
  , rawText := msgRoundupTwo.text
  , isPartOfRoundup := some true
  , acquisitions := none }

/-- The record the AI normalizer produces for `dataDollar` over a raw
text `"t"` and date `"d"`. -/
def recDollarAI : Telegram.InvestmentData :=
  { company := .str "Foo".toList
  , type := .investment
  , date := "d".toList
  , rawText := "t".toList
  , amount := some (.str "5M".toList)
  , valuation := some (.str "100M".toList) }

/-- The record the AI engine produces for `msgAIPlain`/`respPlain`. -/
def recPlainAI : Telegram.InvestmentData :=
  { company := .str "Foo".toList
  , type := .investment
  , date := msgAIPlain.date
  , rawText := msgAIPlain.text }

/-- The length of a JSON array (`none` for non-arrays). -/
def arrLen : JsonValue → Option Nat
  | .arr l => some l.length
  | _ => none

/-- The array length of an AI record's `company`. -/
def companyArrLen (r : Telegram.InvestmentData) : Option Nat := arrLen r.company

/-- The array length of an AI record's `amount`. -/
def amountArrLen (r : Telegram.InvestmentData) : Option Nat :=
  match r.amount with
  | some v => arrLen v
  | none => none

end Scenarios

/-! ## Lemmas — matcher soundness -/

theorem lookup_mem {α β : Type} [BEq α] [LawfulBEq α] :
    ∀ {l : List (α × β)} {k : α} {v : β}, l.lookup k = some v → (k, v) ∈ l := by
  intro l
  induction l with
  | nil => intro k v h; simp [List.lookup] at h
  | cons kv rest ih =>
    intro k v h
    obtain ⟨k', v'⟩ := kv
    rw [List.lookup] at h
    cases hk : k == k' with
    | true =>
      rw [hk] at h
      cases h
      have : k = k' := by simpa using hk
      subst this
      exact List.mem_cons_self _ _
    | false =>
      rw [hk] at h
      exact List.mem_cons_of_mem _ (ih h)

theorem lookup_isSome_of_mem {α β : Type} [BEq α] [LawfulBEq α] :
    ∀ {l : List (α × β)} {k : α} {v : β}, (k, v) ∈ l → (l.lookup k).isSome := by
  intro l
  induction l with
  | nil => intro k v h; cases h
  | cons kv rest ih =>
    intro k v h
    obtain ⟨k', v'⟩ := kv
    rw [List.lookup]
    cases hk : k == k' with
    | true => rfl
    | false =>
      rcases List.mem_cons.mp h with heq | hmem
      · cases heq; simp at hk
      · exact ih hmem

/-- Every capture produced by a match is the content of a structurally
present group whose body matched it. -/
theorem mrun_caps {r : RE} :
    ∀ {prev : Option Char} {s : JStr} {x : JStr × RECaps}, x ∈ mrun r prev s →
      ∀ {n : Nat} {cs : JStr}, (n, cs) ∈ x.2 → GroupOf r n cs := by
  induction r with
  | eps =>
    intro prev s x hx n cs hm
    simp [mrun] at hx
    subst hx
    simp at hm
  | lit l =>
    intro prev s x hx n cs hm
    simp only [mrun] at hx
    split at hx <;> simp at hx
    subst hx
    simp at hm
  | litCI l =>
    intro prev s x hx n cs hm
    simp only [mrun] at hx
    split at hx <;> simp at hx
    subst hx
    simp at hm
  | cls p =>
    intro prev s x hx n cs hm
    simp only [mrun] at hx
    rcases s with _ | ⟨c, t⟩
    · cases hx
    · by_cases hp : p c
      · simp [hp] at hx
        subst hx
        simp at hm
      · simp [hp] at hx
  | starCls p =>
    intro prev s x hx n cs hm
    simp only [mrun] at hx
    rw [List.mem_map] at hx
    obtain ⟨k, _, heq⟩ := hx
    rw [← heq] at hm
    cases hm
  | plusCls p =>
    intro prev s x hx n cs hm
    simp only [mrun] at hx
    rw [List.mem_map] at hx
    obtain ⟨k, _, heq⟩ := hx
    rw [← heq] at hm
    cases hm
  | repClsMax b p =>
    intro prev s x hx n cs hm
    simp only [mrun] at hx
    rw [List.mem_map] at hx
    obtain ⟨k, _, heq⟩ := hx
    rw [← heq] at hm
    cases hm
  | opt r ih =>
    intro prev s x hx n cs hm
    simp only [mrun] at hx
    rcases List.mem_append.mp hx with h1 | h2
    · exact ih h1 hm
    · simp at h2
      subst h2
      simp at hm
  | seq a b iha ihb =>
    intro prev s x hx n cs hm
    simp only [mrun] at hx
    rw [List.mem_flatMap] at hx
    obtain ⟨ya, hya, hx⟩ := hx
    rw [List.mem_map] at hx
    obtain ⟨yb, hyb, heq⟩ := hx
    rw [← heq] at hm
    rcases List.mem_append.mp hm with h1 | h2
    · exact Or.inl (iha hya h1)
    · exact Or.inr (ihb hyb h2)
  | alt a b iha ihb =>
    intro prev s x hx n cs hm
    simp only [mrun] at hx
    rcases List.mem_append.mp hx with h1 | h2
    · exact Or.inl (iha h1 hm)
    · exact Or.inr (ihb h2 hm)
  | grp m r ih =>
    intro prev s x hx n cs hm
    simp only [mrun] at hx
    rw [List.mem_map] at hx
    obtain ⟨y, hy, heq⟩ := hx
    rw [← heq] at hm
    rcases List.mem_cons.mp hm with h1 | h2
    · simp only [Prod.mk.injEq] at h1
      obtain ⟨hn, hcs⟩ := h1
      refine Or.inl ⟨hn.symm, ?_⟩
      rw [hcs]
      exact ⟨prev, s, y.2, hy⟩
    · exact Or.inr (ih hy h2)
  | wordB =>
    intro prev s x hx n cs hm
    simp only [mrun] at hx
    split at hx <;> simp at hx
    subst hx
    simp at hm

/-- Every match of a pattern carries a capture for each `MustCap`
group. -/
theorem mrun_mustCap {r : RE} :
    ∀ {prev : Option Char} {s : JStr} {x : JStr × RECaps}, x ∈ mrun r prev s →
      ∀ {n : Nat}, MustCap r n → ∃ cs, (n, cs) ∈ x.2 := by
  induction r with
  | eps => intro _ _ _ _ _ h; cases h
  | lit l => intro _ _ _ _ _ h; cases h
  | litCI l => intro _ _ _ _ _ h; cases h
  | cls p => intro _ _ _ _ _ h; cases h
  | starCls p => intro _ _ _ _ _ h; cases h
  | plusCls p => intro _ _ _ _ _ h; cases h
  | repClsMax b p => intro _ _ _ _ _ h; cases h
  | opt r ih => intro _ _ _ _ _ h; cases h
  | wordB => intro _ _ _ _ _ h; cases h
  | seq a b iha ihb =>
    intro prev s x hx n hmc
    simp only [mrun] at hx
    rw [List.mem_flatMap] at hx
    obtain ⟨ya, hya, hx⟩ := hx
    rw [List.mem_map] at hx
    obtain ⟨yb, hyb, heq⟩ := hx
    rcases hmc with h1 | h2
    · obtain ⟨cs, hcs⟩ := iha hya h1
      exact ⟨cs, by rw [← heq]; exact List.mem_append_left _ hcs⟩
    · obtain ⟨cs, hcs⟩ := ihb hyb h2
      exact ⟨cs, by rw [← heq]; exact List.mem_append_right _ hcs⟩
  | alt a b iha ihb => intro _ _ _ _ _ h; cases h
  | grp m r ih =>
    intro prev s x hx n hmc
    simp only [mrun] at hx
    rw [List.mem_map] at hx
    obtain ⟨y, hy, heq⟩ := hx
    rcases hmc with h1 | h2
    · exact ⟨y.1, by rw [← heq]; exact h1 ▸ List.mem_cons_self _ _⟩
    · obtain ⟨cs, hcs⟩ := ih hy h2
      exact ⟨cs, by rw [← heq]; exact List.mem_cons_of_mem _ hcs⟩

theorem matches_plusCls {p : Char → Bool} {cs : JStr} (h : Matches (.plusCls p) cs) :
    cs ≠ [] ∧ ∀ c ∈ cs, p c := by
  obtain ⟨prev, s, caps, hm⟩ := h
  simp only [mrun] at hm
  rw [List.mem_map] at hm
  obtain ⟨k, hk, heq⟩ := hm
  rw [List.mem_reverse, List.mem_range] at hk
  have h1 : (s.takeWhile p).take (k + 1) = cs := congrArg Prod.fst heq
  constructor
  · rw [← h1]
    apply List.ne_nil_of_length_pos
    rw [List.length_take]
    omega
  · intro c hc
    rw [← h1] at hc
    exact List.mem_takeWhile_imp (List.take_subset _ _ hc)

theorem matches_cls {p : Char → Bool} {cs : JStr} (h : Matches (.cls p) cs) :
    ∃ c, cs = [c] ∧ p c := by
  obtain ⟨prev, s, caps, hm⟩ := h
  rcases s with _ | ⟨c, t⟩
  · simp [mrun] at hm
  · by_cases hp : p c
    · simp [mrun, hp] at hm
      exact ⟨c, hm.1, hp⟩
    · simp [mrun, hp] at hm

theorem reFindGo_sound {r : RE} :
    ∀ {prev : Option Char} {i : Nat} {s : JStr} {res : Nat × JStr × RECaps},
      reFindGo r prev i s = some res →
      ∃ prev' s', ((res.2.1, res.2.2) : JStr × RECaps) ∈ mrun r prev' s' := by
  intro prev i s
  induction s generalizing prev i with
  | nil =>
    intro res h
    rw [reFindGo] at h
    split at h
    · cases h
      rename_i x rest hm
      exact ⟨prev, [], by rw [hm]; exact List.mem_cons_self _ _⟩
    · cases h
  | cons c t ih =>
    intro res h
    rw [reFindGo] at h
    split at h
    · cases h
      rename_i x rest hm
      exact ⟨prev, c :: t, by rw [hm]; exact List.mem_cons_self _ _⟩
    · exact ih h

theorem reMatchAllGo_sound {r : RE} :
    ∀ {fuel : Nat} {prev : Option Char} {base : Nat} {s : JStr}
      {x : Nat × JStr × RECaps}, x ∈ reMatchAllGo r fuel prev base s →
      ∃ prev' s', ((x.2.1, x.2.2) : JStr × RECaps) ∈ mrun r prev' s' := by
  intro fuel
  induction fuel with
  | zero => intro _ _ _ _ h; cases h
  | succ fuel ih =>
    intro prev base s x h
    rw [reMatchAllGo] at h
    cases hfind : reFindGo r prev base s with
    | none => rw [hfind] at h; cases h
    | some res =>
      obtain ⟨j, m, caps⟩ := res
      rw [hfind] at h
      simp only [] at h
      split at h <;> split at h <;>
        (rcases List.mem_cons.mp h with h1 | h2
         · subst h1; exact reFindGo_sound hfind
         · first
           | exact ih h2
           | cases h2)

theorem reMatchAt0_sound {r : RE} {s : JStr} {x : JStr × RECaps}
    (h : reMatchAt0 r s = some x) : x ∈ mrun r none s := by
  unfold reMatchAt0 at h
  cases hm : mrun r none s with
  | nil => rw [hm] at h; cases h
  | cons y rest =>
    rw [hm] at h
    cases h
    exact List.mem_cons_self _ _

theorem reFind_capGet {r : RE} {s : JStr} {res : Nat × JStr × RECaps}
    (h : reFind r s = some res) {n : Nat} {cs : JStr}
    (hc : capGet res.2.2 n = some cs) : GroupOf r n cs := by
  obtain ⟨prev', s', hmem⟩ := reFindGo_sound h
  exact mrun_caps hmem (lookup_mem hc)

theorem reFind_mustCap {r : RE} {s : JStr} {res : Nat × JStr × RECaps}
    (h : reFind r s = some res) {n : Nat} (hmc : MustCap r n) :
    ∃ cs, capGet res.2.2 n = some cs := by
  obtain ⟨prev', s', hmem⟩ := reFindGo_sound h
  obtain ⟨cs, hcs⟩ := mrun_mustCap hmem hmc
  have := lookup_isSome_of_mem hcs
  exact Option.isSome_iff_exists.mp this

theorem reMatchAll_capGet {r : RE} {s : JStr} {x : Nat × JStr × RECaps}
    (hx : x ∈ reMatchAllAbs r s) {n : Nat} {cs : JStr}
    (hc : capGet x.2.2 n = some cs) : GroupOf r n cs := by
  obtain ⟨prev', s', hmem⟩ := reMatchAllGo_sound hx
  exact mrun_caps hmem (lookup_mem hc)

theorem reMatchAt0_capGet {r : RE} {s : JStr} {x : JStr × RECaps}
    (h : reMatchAt0 r s = some x) {n : Nat} {cs : JStr}
    (hc : capGet x.2 n = some cs) : GroupOf r n cs :=
  mrun_caps (reMatchAt0_sound h) (lookup_mem hc)

/-! ## Lemmas — characters, digit rendering, dollar counting -/

theorem digitDot_ne_dollar {c : Char} (h : digitDot c = true) : c ≠ '$' := by
  intro he
  subst he
  exact absurd h (by decide)

theorem mbChar_elim {c : Char} (h : InvestmentParser.mbChar c = true) :
    c = 'M' ∨ c = 'm' ∨ c = 'B' ∨ c = 'b' := by
  have h2 := h
  simp [InvestmentParser.mbChar] at h2
  tauto

theorem mbChar_toUpper {c : Char} (h : InvestmentParser.mbChar c = true) :
    c.toUpper = 'M' ∨ c.toUpper = 'B' := by
  rcases mbChar_elim h with h | h | h | h <;> subst h
  · exact Or.inl (by decide)
  · exact Or.inl (by decide)
  · exact Or.inr (by decide)
  · exact Or.inr (by decide)

theorem digitChar_ofNat {k : Nat} (h : k < 10) :
    digitChar (Char.ofNat (48 + k)) = true := by
  interval_cases k <;> decide

theorem natToDecGo_chars :
    ∀ (fuel n : Nat) (acc : JStr), (∀ c ∈ acc, digitChar c = true) →
      ∀ c ∈ natToDecGo fuel n acc, digitChar c = true := by
  intro fuel
  induction fuel with
  | zero =>
    intro n acc hacc c hc
    rw [natToDecGo] at hc
    exact hacc c hc
  | succ fuel ih =>
    intro n acc hacc c hc
    rw [natToDecGo] at hc
    split at hc
    · rcases List.mem_cons.mp hc with h1 | h2
      · subst h1
        exact digitChar_ofNat (by omega)
      · exact hacc c h2
    · refine ih (n / 10) _ ?_ c hc
      intro c' hc'
      rcases List.mem_cons.mp hc' with h1 | h2
      · subst h1
        exact digitChar_ofNat (Nat.mod_lt _ (by omega))
      · exact hacc c' h2

theorem natToDec_chars {n : Nat} {c : Char} (hc : c ∈ natToDec n) :
    digitChar c = true :=
  natToDecGo_chars (n + 1) n [] (by intro c h; cases h) c hc

theorem jsToFixed2_no_dollar (x : Option ℚ) : '$' ∉ jsToFixed2 x := by
  cases x with
  | none => decide
  | some q =>
    intro hc
    simp only [jsToFixed2] at hc
    rcases List.mem_append.mp hc with h1 | h2
    · exact absurd (natToDec_chars h1) (by decide)
    · rcases List.mem_cons.mp h2 with h3 | h4
      · exact absurd h3 (by decide)
      · split at h4
        · rcases List.mem_cons.mp h4 with h5 | h6
          · exact absurd h5 (by decide)
          · exact absurd (natToDec_chars h6) (by decide)
        · exact absurd (natToDec_chars h4) (by decide)

theorem countDollar_nil : countDollar [] = 0 := rfl

theorem countDollar_cons (c : Char) (t : JStr) :
    countDollar (c :: t) = countDollar t + (if c = '$' then 1 else 0) := by
  simp [countDollar, List.countP_cons]

theorem countDollar_replace_le_one :
    ∀ {s : JStr}, countDollar s ≤ 1 →
      countDollar (jsReplaceFirstEmpty s "$".toList) = 0 := by
  intro s
  induction s with
  | nil => intro _; decide
  | cons c t ih =>
    intro h
    rw [jsReplaceFirstEmpty]
    by_cases hc : c = '$'
    · subst hc
      rw [if_pos (by simp [List.isPrefixOf])]
      rw [countDollar_cons, if_pos rfl] at h
      have hdrop : List.drop ("$".toList.length) ('$' :: t) = t := rfl
      rw [hdrop]
      omega
    · rw [if_neg (by simp [List.isPrefixOf]; intro he; exact absurd he.symm hc)]
      rw [countDollar_cons]
      rw [countDollar_cons] at h
      rw [if_neg hc] at h ⊢
      simpa using ih (by omega)

theorem countDollar_sublist {s t : JStr} (h : List.Sublist s t) :
    countDollar s ≤ countDollar t :=
  List.Sublist.countP_le _ h

theorem jsTrim_sublist (s : JStr) : List.Sublist (jsTrim s) s := by
  unfold jsTrim
  have h1 : List.Sublist (((s.dropWhile (wsChar ·)).reverse.dropWhile (wsChar ·))).reverse
      (s.dropWhile (wsChar ·)).reverse.reverse := by
    exact List.Sublist.reverse (List.dropWhile_sublist _)
  rw [List.reverse_reverse] at h1
  exact h1.trans (List.dropWhile_sublist _)

theorem countDollar_trim_le (s : JStr) : countDollar (jsTrim s) ≤ countDollar s :=
  countDollar_sublist (jsTrim_sublist s)

/-! ## Lemmas — `stringsOk` propagation -/

namespace Telegram

theorem stringsOkList_mem :
    ∀ {l : List JsonValue}, stringsOkList l = true →
      ∀ {v : JsonValue}, v ∈ l → stringsOk v = true := by
  intro l
  induction l with
  | nil => intro _ v hv; cases hv
  | cons a as ih =>
    intro h v hv
    rw [stringsOkList, Bool.and_eq_true] at h
    rcases List.mem_cons.mp hv with h1 | h2
    · subst h1; exact h.1
    · exact ih h.2 h2

theorem stringsOkFields_mem :
    ∀ {fs : List (JStr × JsonValue)}, stringsOkFields fs = true →
      ∀ {kv : JStr × JsonValue}, kv ∈ fs → stringsOk kv.2 = true := by
  intro fs
  induction fs with
  | nil => intro _ kv hkv; cases hkv
  | cons a as ih =>
    intro h kv hkv
    rw [stringsOkFields, Bool.and_eq_true] at h
    rcases List.mem_cons.mp hkv with h1 | h2
    · subst h1; exact h.1
    · exact ih h.2 h2

theorem stringsOk_getField {data : JsonValue} {k : JStr} {v : JsonValue}
    (hok : stringsOk data = true) (h : jsGetField data k = .ok (some v)) :
    stringsOk v = true := by
  cases data with
  | null => simp [jsGetField] at h
  | bool b => simp [jsGetField] at h
  | num q => simp [jsGetField] at h
  | str s => simp [jsGetField] at h
  | arr l => simp [jsGetField] at h
  | obj fs =>
    simp only [jsGetField, Except.ok.injEq] at h
    have hmem := lookup_mem h
    rw [stringsOk] at hok
    exact stringsOkFields_mem hok hmem

theorem stringsOk_str {s : JStr} (h : stringsOk (.str s) = true) :
    countDollar s ≤ 1 := by
  rw [stringsOk] at h
  exact of_decide_eq_true h

end Telegram

/-! ## Claim C4 — the deterministic pre-filter -/

/-- C4 (counterexample): the message `"Acme raised a lot"` contains
`raised` yet is rejected by the deterministic engine at step 1,
contradicting the claim that every message containing `raised` passes
the pre-filter. -/
theorem claim_C4_counterexample :
    jsIncludes Scenarios.msgRaisedOnly.text "raised".toList = true ∧
    InvestmentParser.parseInvestmentData Scenarios.msgRaisedOnly = none := by
  exact ⟨by decide, by rfl⟩

/-- C4 (amended): the deterministic pre-filter rejects a message iff its
text contains none of `Round`, `acquired`, `Funding`, `$` — `raised` is
not among the tokens it checks; when some token is present the parse
proceeds past step 1. -/
theorem claim_C4 :
    ∀ (msg : InvestmentParser.TelegramMessage),
      (InvestmentParser.prefilterDet msg.text = false ↔
        ¬(jsIncludes msg.text "Round".toList = true ∨
          jsIncludes msg.text "acquired".toList = true ∨
          jsIncludes msg.text "Funding".toList = true ∨
          jsIncludes msg.text "$".toList = true)) ∧
      (InvestmentParser.prefilterDet msg.text = false →
        InvestmentParser.parseInvestmentData msg = none) ∧
      (InvestmentParser.prefilterDet msg.text = true →
        InvestmentParser.parseInvestmentData msg =
          InvestmentParser.parseInvestmentDataMain msg) := by
  intro msg
  refine ⟨?_, ?_, ?_⟩
  · constructor
    · intro h hcon
      rw [InvestmentParser.prefilterDet] at h
      simp only [Bool.or_eq_false_iff] at h
      rcases hcon with h1 | h1 | h1 | h1
      · rw [h.1.1.1] at h1; exact Bool.noConfusion h1
      · rw [h.1.1.2] at h1; exact Bool.noConfusion h1
      · rw [h.1.2] at h1; exact Bool.noConfusion h1
      · rw [h.2] at h1; exact Bool.noConfusion h1
    · intro h
      rw [InvestmentParser.prefilterDet]
      have ha : jsIncludes msg.text "Round".toList = false := by
        cases hx : jsIncludes msg.text "Round".toList
        · rfl
        · exact absurd (Or.inl hx) h
      have hb : jsIncludes msg.text "acquired".toList = false := by
        cases hx : jsIncludes msg.text "acquired".toList
        · rfl
        · exact absurd (Or.inr (Or.inl hx)) h
      have hc : jsIncludes msg.text "Funding".toList = false := by
        cases hx : jsIncludes msg.text "Funding".toList
        · rfl
        · exact absurd (Or.inr (Or.inr (Or.inl hx))) h
      have hd : jsIncludes msg.text "$".toList = false := by
        cases hx : jsIncludes msg.text "$".toList
        · rfl
        · exact absurd (Or.inr (Or.inr (Or.inr hx))) h
      rw [ha, hb, hc, hd]
      rfl
  · intro h
    rw [InvestmentParser.parseInvestmentData, h]
    rfl
  · intro h
    rw [InvestmentParser.parseInvestmentData, h]
    rfl

/-- C4 (witness): the amended characterization applied to the concrete
rejected message. -/
theorem claim_C4_witness :
    InvestmentParser.prefilterDet Scenarios.msgRaisedOnly.text = false ∧
    InvestmentParser.parseInvestmentData Scenarios.msgRaisedOnly = none :=
  ⟨by decide, (claim_C4 Scenarios.msgRaisedOnly).2.1 (by decide)⟩

/-! ## Claim C10 — `recordError` frame -/

/-- C10 (confirmed): `recordError` appends exactly one entry to the
error log, leaves every other field of the checkpoint state unchanged,
and persists the new state. -/
theorem claim_C10 :
    ∀ (m : CheckpointSystem.CheckpointManager) (st : CheckpointSystem.Storage)
      (batchIndex : Int) (errorMsg now : JStr),
      ((CheckpointSystem.recordError m st batchIndex errorMsg now).1.data.errors =
        m.data.errors ++ [⟨batchIndex, errorMsg, now⟩]) ∧
      ((CheckpointSystem.recordError m st batchIndex errorMsg now).1.data.channel =
        m.data.channel) ∧
      ((CheckpointSystem.recordError m st batchIndex errorMsg now).1.data.totalProcessed =
        m.data.totalProcessed) ∧
      ((CheckpointSystem.recordError m st batchIndex errorMsg now).1.data.lastBatchIndex =
        m.data.lastBatchIndex) ∧
      ((CheckpointSystem.recordError m st batchIndex errorMsg now).1.data.lastProcessedTime =
        m.data.lastProcessedTime) ∧
      ((CheckpointSystem.recordError m st batchIndex errorMsg now).1.data.batchSize =
        m.data.batchSize) ∧
      ((CheckpointSystem.recordError m st batchIndex errorMsg now).1.checkpointPath =
        m.checkpointPath) ∧
      ((CheckpointSystem.recordError m st batchIndex errorMsg now).2 =
        CheckpointSystem.storageWrite st m.checkpointPath
          (CheckpointSystem.recordError m st batchIndex errorMsg now).1.data) :=
  fun _ _ _ _ _ => ⟨rfl, rfl, rfl, rfl, rfl, rfl, rfl, rfl⟩

/-! ## Claim C6 — checkpoint construction and resume -/

namespace CheckpointSystem

theorem mk_checkpointPath (st : Storage) (channel : JStr) (bs : Nat) (now : JStr) :
    (mkCheckpointManager st channel bs now).1.checkpointPath = checkpointPathOf channel := by
  rw [mkCheckpointManager]
  rcases st.lookup (checkpointPathOf channel) with _ | d <;> rfl

theorem mk_over_write (st : Storage) (p : JStr) (d : CheckpointData)
    (channel : JStr) (bs : Nat) (now : JStr) (hp : p = checkpointPathOf channel) :
    mkCheckpointManager (storageWrite st p d) channel bs now =
      ({ checkpointPath := p, data := d }, storageWrite st p d) := by
  subst hp
  rw [mkCheckpointManager]
  simp [storageWrite, List.lookup]

theorem mk_after_update (m : CheckpointManager) (st : Storage) (k : Int) (n : Nat)
    (now2 : JStr) (channel : JStr) (bs2 : Nat) (now3 : JStr)
    (hp : m.checkpointPath = checkpointPathOf channel) :
    (mkCheckpointManager (updateCheckpoint m st k n now2).2 channel bs2 now3).1.data =
      (updateCheckpoint m st k n now2).1.data := by
  have h2 : (updateCheckpoint m st k n now2).2 =
      storageWrite st m.checkpointPath (updateCheckpoint m st k n now2).1.data := rfl
  rw [h2, mk_over_write _ _ _ _ _ _ hp]

end CheckpointSystem

/-- C6 (confirmed): after `updateCheckpoint(k, n)` persists, a manager
re-constructed over the same storage reports `getNextBatchIndex = k + 1`
and the same `getTotalProcessed` as the updating manager; with no
persisted state a fresh manager starts at `lastBatchIndex = -1`
(`getNextBatchIndex = 0`), zero processed, an empty error log, and
persists that state immediately. -/
theorem claim_C6 :
    ∀ (st : CheckpointSystem.Storage) (channel : JStr) (bs : Nat) (now : JStr)
      (k : Int) (n : Nat) (now2 : JStr) (bs2 : Nat) (now3 : JStr),
      (CheckpointSystem.getNextBatchIndex
          (CheckpointSystem.mkCheckpointManager
            (CheckpointSystem.updateCheckpoint
              (CheckpointSystem.mkCheckpointManager st channel bs now).1
              (CheckpointSystem.mkCheckpointManager st channel bs now).2 k n now2).2
            channel bs2 now3).1 = k + 1 ∧
        CheckpointSystem.getTotalProcessed
          (CheckpointSystem.mkCheckpointManager
            (CheckpointSystem.updateCheckpoint
              (CheckpointSystem.mkCheckpointManager st channel bs now).1
              (CheckpointSystem.mkCheckpointManager st channel bs now).2 k n now2).2
            channel bs2 now3).1 =
        CheckpointSystem.getTotalProcessed
          (CheckpointSystem.updateCheckpoint
            (CheckpointSystem.mkCheckpointManager st channel bs now).1
            (CheckpointSystem.mkCheckpointManager st channel bs now).2 k n now2).1) ∧
      (st.lookup (CheckpointSystem.checkpointPathOf channel) = none →
        (CheckpointSystem.mkCheckpointManager st channel bs now).1.data.lastBatchIndex = -1 ∧
        CheckpointSystem.getNextBatchIndex
          (CheckpointSystem.mkCheckpointManager st channel bs now).1 = 0 ∧
        CheckpointSystem.getTotalProcessed
          (CheckpointSystem.mkCheckpointManager st channel bs now).1 = 0 ∧
        (CheckpointSystem.mkCheckpointManager st channel bs now).1.data.errors = [] ∧
        (CheckpointSystem.mkCheckpointManager st channel bs now).2.lookup
            (CheckpointSystem.mkCheckpointManager st channel bs now).1.checkpointPath =
          some (CheckpointSystem.mkCheckpointManager st channel bs now).1.data) := by
  intro st channel bs now k n now2 bs2 now3
  constructor
  · have hmk := CheckpointSystem.mk_after_update
      (CheckpointSystem.mkCheckpointManager st channel bs now).1
      (CheckpointSystem.mkCheckpointManager st channel bs now).2 k n now2 channel bs2 now3
      (CheckpointSystem.mk_checkpointPath st channel bs now)
    constructor
    · rw [CheckpointSystem.getNextBatchIndex, hmk]
      rfl
    · rw [CheckpointSystem.getTotalProcessed, hmk]
      rfl
  · intro hnone
    rw [CheckpointSystem.mkCheckpointManager, hnone]
    refine ⟨rfl, rfl, rfl, rfl, ?_⟩
    simp [CheckpointSystem.saveCheckpoint, CheckpointSystem.storageWrite, List.lookup]

/-- C6 (witness): the fresh-start clause at an empty storage, and the
resume clause at a concrete update. -/
theorem claim_C6_witness :
    CheckpointSystem.getNextBatchIndex
      (CheckpointSystem.mkCheckpointManager
        (CheckpointSystem.updateCheckpoint
          (CheckpointSystem.mkCheckpointManager [] "chan".toList 25 "t0".toList).1
          (CheckpointSystem.mkCheckpointManager [] "chan".toList 25 "t0".toList).2
          4 100 "t1".toList).2
        "chan".toList 25 "t2".toList).1 = 5 ∧
    (CheckpointSystem.mkCheckpointManager [] "chan".toList 25 "t0".toList).1.data.errors
      = [] := by
  constructor
  · exact (claim_C6 [] "chan".toList 25 "t0".toList 4 100 "t1".toList 25
      "t2".toList).1.1
  · exact ((claim_C6 [] "chan".toList 25 "t0".toList 4 100 "t1".toList 25
      "t2".toList).2 (by rfl)).2.2.2.1

/-! ## Claim C5 — token-bucket bounds -/

namespace TokenManager

theorem refill_tpm (s : TokenRateLimiter) (now : Nat) :
    (refillTokens s now).tokensPerMinute = s.tokensPerMinute := by
  unfold refillTokens
  simp only []
  split <;> rfl

theorem refill_last_le {s : TokenRateLimiter} {now : Nat}
    (h : s.lastRefillTime ≤ now) : (refillTokens s now).lastRefillTime ≤ now := by
  unfold refillTokens
  simp only []
  split
  · exact le_refl _
  · exact h

theorem refill_budget_bounds {s : TokenRateLimiter} (h : BudgetInv s) (now : Nat) :
    BudgetInv (refillTokens s now) := by
  obtain ⟨h0, h1⟩ := h
  unfold refillTokens BudgetInv
  simp only []
  split
  · refine ⟨?_, ?_⟩
    · exact le_min (add_nonneg h0 (Int.natCast_nonneg _)) (Int.natCast_nonneg _)
    · exact min_le_right _ _
  · exact ⟨h0, h1⟩

theorem refill_after_wait {s1 : TokenRateLimiter} {tokens t2 : Nat} {t1 : Nat}
    (hcap : tokens ≤ s1.tokensPerMinute)
    (hbud : s1.tokenBudget < (tokens : Int))
    (hinv : BudgetInv s1)
    (hlast : s1.lastRefillTime ≤ t1)
    (ht2 : t1 + timeToWait s1 tokens ≤ t2) :
    (tokens : Int) ≤ (refillTokens s1 t2).tokenBudget := by
  obtain ⟨h0, _⟩ := hinv
  have htokpos : 0 < tokens := by
    have : (0 : Int) < (tokens : Int) := lt_of_le_of_lt h0 hbud
    exact_mod_cast this
  have htpos : 0 < s1.tokensPerMinute := lt_of_lt_of_le htokpos hcap
  set d := ((tokens : Int) - s1.tokenBudget).toNat with hd
  have hdeq : (d : Int) = (tokens : Int) - s1.tokenBudget := by
    rw [hd]; omega
  have hd1 : 1 ≤ d := by omega
  set q := (d * 60000 + s1.tokensPerMinute - 1) / s1.tokensPerMinute with hq
  have hwq : timeToWait s1 tokens = q := rfl
  have hkey : d * 60000 ≤ q * s1.tokensPerMinute := by
    have h1 := Nat.div_add_mod (d * 60000 + s1.tokensPerMinute - 1) s1.tokensPerMinute
    have h2 : (d * 60000 + s1.tokensPerMinute - 1) % s1.tokensPerMinute <
        s1.tokensPerMinute := Nat.mod_lt _ htpos
    have h3 : q * s1.tokensPerMinute = s1.tokensPerMinute *
        ((d * 60000 + s1.tokensPerMinute - 1) / s1.tokensPerMinute) := by
      rw [hq, Nat.mul_comm]
    rw [h3]
    generalize hP : s1.tokensPerMinute *
      ((d * 60000 + s1.tokensPerMinute - 1) / s1.tokensPerMinute) = P at h1 ⊢
    omega
  have helapsed : q ≤ t2 - s1.lastRefillTime := by
    rw [hwq] at ht2
    omega
  have hmul : q * s1.tokensPerMinute ≤ (t2 - s1.lastRefillTime) * s1.tokensPerMinute :=
    Nat.mul_le_mul_right _ helapsed
  have hadd : d ≤ (t2 - s1.lastRefillTime) * s1.tokensPerMinute / 60000 := by
    rw [Nat.le_div_iff_mul_le (by omega : 0 < 60000)]
    exact le_trans hkey hmul
  have haddpos : 0 < (t2 - s1.lastRefillTime) * s1.tokensPerMinute / 60000 := by omega
  unfold refillTokens
  simp only []
  rw [if_pos haddpos]
  refine le_min ?_ (by exact_mod_cast hcap)
  have hcast : (d : Int) ≤
      (((t2 - s1.lastRefillTime) * s1.tokensPerMinute / 60000 : Nat) : Int) := by
    exact_mod_cast hadd
  omega

theorem consume_inv {s : TokenRateLimiter} {tokens t1 t2 : Nat}
    (hinv : BudgetInv s) (hcap : tokens ≤ s.tokensPerMinute)
    (ht : ReqTimingOk s ⟨tokens, t1, t2⟩) :
    BudgetInv (consumeTokens s tokens t1 t2) := by
  obtain ⟨hlast, hwait⟩ := ht
  simp only [] at hlast hwait
  have hinv1 : BudgetInv (refillTokens s t1) := refill_budget_bounds hinv t1
  have htpm1 : (refillTokens s t1).tokensPerMinute = s.tokensPerMinute :=
    refill_tpm s t1
  unfold consumeTokens
  simp only []
  split
  · rename_i hlt
    have hlast1 : (refillTokens s t1).lastRefillTime ≤ t1 := refill_last_le hlast
    have hge := refill_after_wait (htpm1 ▸ hcap) hlt hinv1 hlast1 hwait
    have hinv2 : BudgetInv (refillTokens (refillTokens s t1) t2) :=
      refill_budget_bounds hinv1 t2
    have htpm2 : (refillTokens (refillTokens s t1) t2).tokensPerMinute =
        s.tokensPerMinute := by rw [refill_tpm, refill_tpm]
    constructor
    · show (0 : Int) ≤ (refillTokens (refillTokens s t1) t2).tokenBudget - tokens
      omega
    · show (refillTokens (refillTokens s t1) t2).tokenBudget - tokens ≤
        ((refillTokens (refillTokens s t1) t2).tokensPerMinute : Int)
      have h2 := hinv2.2
      omega
  · rename_i hge
    push_neg at hge
    constructor
    · show (0 : Int) ≤ (refillTokens s t1).tokenBudget - tokens
      omega
    · show (refillTokens s t1).tokenBudget - tokens ≤
        ((refillTokens s t1).tokensPerMinute : Int)
      have h2 := hinv1.2
      have h0 : (0 : Int) ≤ (tokens : Int) := Int.natCast_nonneg _
      omega

theorem consume_tpm (s : TokenRateLimiter) (tokens t1 t2 : Nat) :
    (consumeTokens s tokens t1 t2).tokensPerMinute = s.tokensPerMinute := by
  unfold consumeTokens
  simp only []
  split
  · show (refillTokens (refillTokens s t1) t2).tokensPerMinute = _
    rw [refill_tpm, refill_tpm]
  · show (refillTokens s t1).tokensPerMinute = _
    rw [refill_tpm]

end TokenManager

/-- C5 (counterexample): a single well-timed request of 120000 tokens
against a fresh 60000-capacity limiter drives the budget to −60000: the
post-wait refill is capped at the capacity, so a request exceeding the
capacity always leaves a negative budget, contradicting the claim that
the budget never drops below zero even for over-capacity requests. -/
theorem claim_C5_counterexample :
    0 < Scenarios.reqOverCap.tokens ∧
    TokenManager.ReqTimingOk Scenarios.limiter0 Scenarios.reqOverCap ∧
    (TokenManager.consumeTokens Scenarios.limiter0 Scenarios.reqOverCap.tokens
        Scenarios.reqOverCap.t1 Scenarios.reqOverCap.t2).tokenBudget = -60000 ∧
    ¬ TokenManager.BudgetInv
        (TokenManager.consumeTokens Scenarios.limiter0 Scenarios.reqOverCap.tokens
          Scenarios.reqOverCap.t1 Scenarios.reqOverCap.t2) := by
  refine ⟨by decide, ?_, by decide, ?_⟩
  · unfold TokenManager.ReqTimingOk
    exact ⟨by decide, by decide⟩
  · unfold TokenManager.BudgetInv
    decide

/-- C5 (amended): along every well-timed trace of `consumeTokens` calls
with positive token counts **each at most the capacity**, the available
budget stays within `[0, capacity]` after every prefix; a single request
exceeding the capacity breaks the lower bound (see the
counterexample). -/
theorem claim_C5 :
    ∀ (pre : List TokenManager.TokenRequest) (s : TokenManager.TokenRateLimiter)
      (post : List TokenManager.TokenRequest),
      TokenManager.BudgetInv s → TokenManager.ValidRun s (pre ++ post) →
      TokenManager.BudgetInv (TokenManager.runConsume s pre) := by
  intro pre
  induction pre with
  | nil =>
    intro s post hinv _
    exact hinv
  | cons r pr ih =>
    intro s post hinv hvr
    cases hvr with
    | cons hpos hcap htime htail =>
      exact ih _ post (TokenManager.consume_inv hinv hcap htime) htail

/-- C5 (witness): the amended invariant applied to a concrete two-call
trace (30000, then 60000 tokens after the required wait). -/
theorem claim_C5_witness :
    TokenManager.BudgetInv Scenarios.limiter0 ∧
    TokenManager.BudgetInv
      (TokenManager.runConsume Scenarios.limiter0 Scenarios.reqsOk) := by
  have hinv0 : TokenManager.BudgetInv Scenarios.limiter0 := by
    unfold TokenManager.BudgetInv
    exact ⟨by decide, by decide⟩
  have hvr : TokenManager.ValidRun Scenarios.limiter0 (Scenarios.reqsOk ++ []) := by
    rw [List.append_nil]
    refine TokenManager.ValidRun.cons (by decide) (by decide) ?_
      (TokenManager.ValidRun.cons (by decide) (by decide) ?_
        (TokenManager.ValidRun.nil _))
    · unfold TokenManager.ReqTimingOk
      exact ⟨by decide, by decide⟩
    · unfold TokenManager.ReqTimingOk
      exact ⟨by decide, by decide⟩
  exact ⟨hinv0, claim_C5 Scenarios.reqsOk Scenarios.limiter0 [] hinv0 hvr⟩

/-! ## Claim C7 — the retry controller -/

namespace Telegram

theorem retryGo_ok {α : Type} {op : Nat → Except JsError α} {rand : Nat → ℚ}
    {maxRetries : Nat} {initialDelay maxDelay : ℚ} :
    ∀ (k i : Nat) (v : α),
      (∀ j, j < k → ∃ e, op (i + j) = .error e ∧ isRetryableErr e = true) →
      op (i + k) = .ok v → i + k ≤ maxRetries →
      retryGo op rand maxRetries maxDelay (maxRetries - i) i
          (retryDelays rand initialDelay maxDelay i) =
        (.ok v, (List.range' (i + 1) k).map (retryDelays rand initialDelay maxDelay)) := by
  intro k
  induction k with
  | zero =>
    intro i v _ hok _
    rw [Nat.add_zero] at hok
    cases hfuel : maxRetries - i with
    | zero => rw [retryGo, hok]; rfl
    | succ f => rw [retryGo, hok]; rfl
  | succ k ih =>
    intro i v hfail hok hle
    obtain ⟨e, he, hre⟩ := hfail 0 (Nat.succ_pos k)
    rw [Nat.add_zero] at he
    have hfuel : maxRetries - i = (maxRetries - (i + 1)) + 1 := by omega
    rw [hfuel, retryGo, he]
    simp only []
    rw [if_neg (by rw [hre]; simp; omega)]
    have hd : min (retryDelays rand initialDelay maxDelay i * (3 / 2) *
        jitterOf (rand i)) maxDelay = retryDelays rand initialDelay maxDelay (i + 1) := rfl
    rw [hd]
    rw [ih (i + 1) v
      (fun j hj => by
        have := hfail (j + 1) (by omega)
        rwa [show i + (j + 1) = i + 1 + j by omega] at this)
      (by rwa [show i + 1 + k = i + (k + 1) by omega])
      (by omega)]
    rw [show List.range' (i + 1) (k + 1) = (i + 1) :: List.range' (i + 2) k from rfl]
    rfl

theorem retryGo_err {α : Type} {op : Nat → Except JsError α} {rand : Nat → ℚ}
    {maxRetries : Nat} {initialDelay maxDelay : ℚ} :
    ∀ (k i : Nat) (e : JsError),
      (∀ j, j < k → ∃ e', op (i + j) = .error e' ∧ isRetryableErr e' = true) →
      op (i + k) = .error e → i + k ≤ maxRetries →
      (isRetryableErr e = false ∨ i + k = maxRetries) →
      retryGo op rand maxRetries maxDelay (maxRetries - i) i
          (retryDelays rand initialDelay maxDelay i) =
        (.error e, (List.range' (i + 1) k).map (retryDelays rand initialDelay maxDelay)) := by
  intro k
  induction k with
  | zero =>
    intro i e _ herr hle hdisj
    rw [Nat.add_zero] at herr
    rcases Nat.lt_or_ge i maxRetries with hlt | hge
    · have hfuel : maxRetries - i = (maxRetries - (i + 1)) + 1 := by omega
      rcases hdisj with hre | heq
      · rw [hfuel, retryGo, herr]
        simp only []
        rw [if_pos (by rw [hre]; simp)]
        rfl
      · omega
    · have hieq : i = maxRetries := by omega
      have hfuel : maxRetries - i = 0 := by omega
      rw [hfuel, retryGo, herr]
      rfl
  | succ k ih =>
    intro i e hfail herr hle hdisj
    obtain ⟨e0, he0, hre0⟩ := hfail 0 (Nat.succ_pos k)
    rw [Nat.add_zero] at he0
    have hfuel : maxRetries - i = (maxRetries - (i + 1)) + 1 := by omega
    rw [hfuel, retryGo, he0]
    simp only []
    rw [if_neg (by rw [hre0]; simp; omega)]
    have hd : min (retryDelays rand initialDelay maxDelay i * (3 / 2) *
        jitterOf (rand i)) maxDelay = retryDelays rand initialDelay maxDelay (i + 1) := rfl
    rw [hd]
    rw [ih (i + 1) e
      (fun j hj => by
        have := hfail (j + 1) (by omega)
        rwa [show i + (j + 1) = i + 1 + j by omega] at this)
      (by rwa [show i + 1 + k = i + (k + 1) by omega])
      (by omega)
      (by rcases hdisj with h | h
          · exact Or.inl h
          · exact Or.inr (by omega))]
    rw [show List.range' (i + 1) (k + 1) = (i + 1) :: List.range' (i + 2) k from rfl]
    rfl

theorem retryGo_len {α : Type} {op : Nat → Except JsError α} {rand : Nat → ℚ}
    {maxRetries : Nat} {maxDelay : ℚ} :
    ∀ (fuel i : Nat) (delay : ℚ),
      (retryGo op rand maxRetries maxDelay fuel i delay).2.length ≤ fuel := by
  intro fuel
  induction fuel with
  | zero =>
    intro i delay
    rw [retryGo]
    rcases op i with e | v <;> simp
  | succ fuel ih =>
    intro i delay
    rw [retryGo]
    split
    · simp
    · split
      · simp
      · simp only [List.length_cons]
        exact Nat.succ_le_succ (ih (i + 1) _)

end Telegram

/-- C7 (confirmed): the retry controller returns the first success; a
non-retryable error is re-raised immediately with no further attempt or
wait; after `k ≤ maxRetries` retryable failures the `k`-th retry is
preceded by waits `d₁, …, dₖ` with `dⱼ₊₁ = min(dⱼ · 1.5 · jitter, maxDelay)`
and jitter drawn in `[0.85, 1.15]`; once the retry count exceeds
`maxRetries` the error is re-raised after exactly `maxRetries` waits; no
run ever sleeps more than `maxRetries` times; the defaults are
`maxRetries = 5`, `initialDelay = 2000` ms, `maxDelay = 60000` ms. -/
theorem claim_C7 :
    ∀ (α : Type) (op : Nat → Except Telegram.JsError α) (rand : Nat → ℚ)
      (maxRetries : Nat) (initialDelay maxDelay : ℚ),
      (∀ k v, k ≤ maxRetries →
        (∀ j, j < k → ∃ e, op j = .error e ∧ Telegram.isRetryableErr e = true) →
        op k = .ok v →
        Telegram.retry op rand maxRetries initialDelay maxDelay =
          (.ok v, (List.range' 1 k).map
            (Telegram.retryDelays rand initialDelay maxDelay))) ∧
      (∀ k e, k ≤ maxRetries →
        (∀ j, j < k → ∃ e', op j = .error e' ∧ Telegram.isRetryableErr e' = true) →
        op k = .error e → Telegram.isRetryableErr e = false →
        Telegram.retry op rand maxRetries initialDelay maxDelay =
          (.error e, (List.range' 1 k).map
            (Telegram.retryDelays rand initialDelay maxDelay))) ∧
      (∀ e, (∀ j, j < maxRetries →
          ∃ e', op j = .error e' ∧ Telegram.isRetryableErr e' = true) →
        op maxRetries = .error e →
        Telegram.retry op rand maxRetries initialDelay maxDelay =
          (.error e, (List.range' 1 maxRetries).map
            (Telegram.retryDelays rand initialDelay maxDelay))) ∧
      ((Telegram.retry op rand maxRetries initialDelay maxDelay).2.length ≤ maxRetries) ∧
      (∀ j, Telegram.retryDelays rand initialDelay maxDelay (j + 1) =
        min (Telegram.retryDelays rand initialDelay maxDelay j * (3 / 2) *
          Telegram.jitterOf (rand j)) maxDelay) ∧
      (∀ r : ℚ, 0 ≤ r → r < 1 →
        (17 : ℚ) / 20 ≤ Telegram.jitterOf r ∧ Telegram.jitterOf r ≤ 23 / 20) ∧
      (Telegram.retryWithDefaults op rand = Telegram.retry op rand 5 2000 60000) := by
  intro α op rand maxRetries initialDelay maxDelay
  refine ⟨?_, ?_, ?_, ?_, ?_, ?_, rfl⟩
  · intro k v hk hfail hok
    have h := @Telegram.retryGo_ok α op rand maxRetries initialDelay maxDelay k 0 v
      (fun j hj => by simpa using hfail j hj) (by simpa using hok) (by omega)
    rw [Nat.sub_zero] at h
    exact h
  · intro k e hk hfail herr hre
    have h := @Telegram.retryGo_err α op rand maxRetries initialDelay maxDelay k 0 e
      (fun j hj => by simpa using hfail j hj) (by simpa using herr) (by omega)
      (Or.inl hre)
    rw [Nat.sub_zero] at h
    exact h
  · intro e hfail herr
    have h := @Telegram.retryGo_err α op rand maxRetries initialDelay maxDelay maxRetries 0 e
      (fun j hj => by simpa using hfail j hj) (by simpa using herr) (by omega)
      (Or.inr (by omega))
    rw [Nat.sub_zero] at h
    exact h
  · exact Telegram.retryGo_len maxRetries 0 initialDelay
  · intro j
    rfl
  · intro r h0 h1
    constructor
    · unfold Telegram.jitterOf
      nlinarith
    · unfold Telegram.jitterOf
      nlinarith

/-- C7 (witness): with the default parameters, an operation that fails
once with a 503 and then succeeds returns the success after exactly one
wait of `min(2000 · 1.5 · 0.85, 60000) = 2550` ms. -/
theorem claim_C7_witness :
    Telegram.retryWithDefaults Scenarios.opOnce503 Scenarios.rand0 =
      (.ok 42, [(2550 : ℚ)]) := by
  have h := (claim_C7 Nat Scenarios.opOnce503 Scenarios.rand0 5 2000 60000).1 1 42
    (by omega)
    (fun j hj => by
      match j, hj with
      | 0, _ =>
        exact ⟨{ message := "503 Service Unavailable".toList }, rfl, by decide⟩)
    rfl
  rw [show Telegram.retryWithDefaults Scenarios.opOnce503 Scenarios.rand0 =
    Telegram.retry Scenarios.opOnce503 Scenarios.rand0 5 2000 60000 from rfl, h]
  rw [show List.range' 1 1 = [1] from rfl]
  simp only [List.map_cons, List.map_nil]
  rw [show Telegram.retryDelays Scenarios.rand0 2000 60000 1 = 2550 by
    rw [Telegram.retryDelays, Telegram.retryDelays]
    unfold Telegram.jitterOf Scenarios.rand0
    rw [min_eq_left (by norm_num)]
    norm_num]

/-! ## Claim C8 — JSON brace extraction -/

/-- C8 (confirmed): for every raw generation-service response, if the
response contains no opening brace, or its last closing brace ends at or
before the first opening brace, or the delimited substring fails to
parse, the per-message extraction returns `none` (the message is
dropped, no error escapes the per-message boundary); otherwise it parses
exactly the substring from the first opening brace through the last
closing brace and normalizes the parsed value. -/
theorem claim_C8 :
    ∀ (message : InvestmentParser.TelegramMessage) (response : JStr)
      (jsonParse : JStr → Option Telegram.JsonValue),
      Telegram.prefilterAI message.text = true →
      (jsIndexOfSub response ['\x7b'] = none →
        Telegram.extractInvestmentWithGemini message (.ok response) jsonParse = none) ∧
      (∀ jsonStart, jsIndexOfSub response ['\x7b'] = some jsonStart →
        (Telegram.gemJsonEnd response ≤ jsonStart →
          Telegram.extractInvestmentWithGemini message (.ok response) jsonParse = none) ∧
        (jsonStart < Telegram.gemJsonEnd response →
          (jsonParse (jsSubstring response jsonStart (Telegram.gemJsonEnd response)) = none →
            Telegram.extractInvestmentWithGemini message (.ok response) jsonParse = none) ∧
          (∀ d, jsonParse (jsSubstring response jsonStart (Telegram.gemJsonEnd response)) =
              some d →
            Telegram.extractInvestmentWithGemini message (.ok response) jsonParse =
              (Telegram.standardizeInvestmentData d message.text message.date
                (reTest Telegram.gemIsRoundupRE message.text)).toOption))) := by
  intro message response jsonParse hpre
  refine ⟨fun hno => ?_,
    fun jsonStart hjs => ⟨fun hle => ?_,
      fun hlt => ⟨fun hpn => ?_, fun d hpd => ?_⟩⟩⟩
  · unfold Telegram.extractInvestmentWithGemini
    simp [hpre, hno]
  · unfold Telegram.extractInvestmentWithGemini
    simp [hpre, hjs, hle]
  · unfold Telegram.extractInvestmentWithGemini
    simp [hpre, hjs, Nat.not_le.mpr hlt, hpn]
  · unfold Telegram.extractInvestmentWithGemini
    simp only [hpre, Bool.not_true, Bool.false_eq_true, if_false, hjs]
    rw [if_neg (Nat.not_le.mpr hlt), hpd]
    cases h : Telegram.standardizeInvestmentData d message.text message.date
        (reTest Telegram.gemIsRoundupRE message.text) with
    | ok r => simp [Except.toOption, h]
    | error e => simp [Except.toOption, h]

/-- C8 (witness): a brace-free response is dropped — the per-message
extraction returns `none`. -/
theorem claim_C8_witness :
    Telegram.prefilterAI Scenarios.msgAIPlain.text = true ∧
    jsIndexOfSub Scenarios.respNoBrace ['\x7b'] = none ∧
    Telegram.extractInvestmentWithGemini Scenarios.msgAIPlain
      (.ok Scenarios.respNoBrace) Scenarios.jpPlain = none := by
  refine ⟨by decide, by decide, ?_⟩
  exact (claim_C8 Scenarios.msgAIPlain Scenarios.respNoBrace Scenarios.jpPlain
    (by decide)).1 (by decide)

/-! ## Claim C9 — no emitted record has an empty company -/

theorem extractInvestmentData_keep :
    ∀ (msgs : List InvestmentParser.TelegramMessage)
      (r : InvestmentParser.InvestmentData),
      r ∈ InvestmentParser.extractInvestmentData msgs →
      InvestmentParser.detCompanyKeep r.company = true := by
  intro msgs
  induction msgs with
  | nil =>
    intro r hr
    simp [InvestmentParser.extractInvestmentData] at hr
  | cons m ms ih =>
    intro r hr
    simp only [InvestmentParser.extractInvestmentData, List.foldr_cons] at hr ih
    cases hp : InvestmentParser.parseInvestmentData m with
    | none =>
      rw [hp] at hr
      exact ih r hr
    | some result =>
      rw [hp] at hr
      simp only [] at hr
      split at hr
      · rcases List.mem_cons.mp hr with heq | htl
        · subst heq; assumption
        · exact ih r htl
      · exact ih r hr

theorem extractInvestmentsWithAI_keep :
    ∀ (msgs : List InvestmentParser.TelegramMessage)
      (api : InvestmentParser.TelegramMessage → Except Unit JStr)
      (jsonParse : JStr → Option Telegram.JsonValue)
      (r : Telegram.InvestmentData),
      r ∈ Telegram.extractInvestmentsWithAI msgs api jsonParse →
      Telegram.companyAccept r.company = true := by
  intro msgs api jsonParse
  induction msgs with
  | nil =>
    intro r hr
    simp [Telegram.extractInvestmentsWithAI] at hr
  | cons m ms ih =>
    intro r hr
    simp only [Telegram.extractInvestmentsWithAI, List.foldr_cons] at hr ih
    cases hp : Telegram.extractInvestmentWithGemini m (api m) jsonParse with
    | none =>
      rw [hp] at hr
      exact ih r hr
    | some result =>
      rw [hp] at hr
      simp only [] at hr
      split at hr
      · rcases List.mem_cons.mp hr with heq | htl
        · subst heq; assumption
        · exact ih r htl
      · exact ih r hr

/-- C9 (confirmed): neither engine ever emits a record with an empty
`company`: the deterministic batch extraction keeps a record only if its
`company` is a non-empty string or a non-empty list, and the AI batch
extraction keeps a record only if its `company` is a non-empty JSON
string or a non-empty JSON array. -/
theorem claim_C9 :
    (∀ (msgs : List InvestmentParser.TelegramMessage)
       (r : InvestmentParser.InvestmentData),
       r ∈ InvestmentParser.extractInvestmentData msgs →
       InvestmentParser.CompanyNonEmpty r) ∧
    (∀ (msgs : List InvestmentParser.TelegramMessage)
       (api : InvestmentParser.TelegramMessage → Except Unit JStr)
       (jsonParse : JStr → Option Telegram.JsonValue)
       (r : Telegram.InvestmentData),
       r ∈ Telegram.extractInvestmentsWithAI msgs api jsonParse →
       (∃ s, r.company = .str s ∧ s ≠ []) ∨ (∃ l, r.company = .arr l ∧ l ≠ [])) := by
  constructor
  · intro msgs r hr
    have hk := extractInvestmentData_keep msgs r hr
    unfold InvestmentParser.CompanyNonEmpty
    cases hc : r.company with
    | str s =>
      rw [hc] at hk
      simp [InvestmentParser.detCompanyKeep] at hk
      simpa using hk
    | list l =>
      rw [hc] at hk
      simp [InvestmentParser.detCompanyKeep] at hk
      simpa using List.ne_nil_of_length_pos hk
  · intro msgs api jsonParse r hr
    have hk := extractInvestmentsWithAI_keep msgs api jsonParse r hr
    cases hc : r.company with
    | str s =>
      rw [hc] at hk
      simp [Telegram.companyAccept] at hk
      exact Or.inl ⟨s, rfl, List.ne_nil_of_length_pos hk⟩
    | arr l =>
      rw [hc] at hk
      simp [Telegram.companyAccept] at hk
      exact Or.inr ⟨l, rfl, List.ne_nil_of_length_pos hk⟩
    | null => rw [hc] at hk; simp [Telegram.companyAccept] at hk
    | bool b => rw [hc] at hk; simp [Telegram.companyAccept] at hk
    | num q => rw [hc] at hk; simp [Telegram.companyAccept] at hk
    | obj fields => rw [hc] at hk; simp [Telegram.companyAccept] at hk

/-- C9 (witness): both engines emit their scenario records, whose
companies are non-empty. -/
theorem claim_C9_witness :
    (Scenarios.recDotAmount ∈
        InvestmentParser.extractInvestmentData [Scenarios.msgDotAmount] ∧
      InvestmentParser.CompanyNonEmpty Scenarios.recDotAmount) ∧
    (Scenarios.recPlainAI ∈
        Telegram.extractInvestmentsWithAI [Scenarios.msgAIPlain]
          (fun _ => .ok Scenarios.respPlain) Scenarios.jpPlain ∧
      ((∃ s, Scenarios.recPlainAI.company = .str s ∧ s ≠ []) ∨
       (∃ l, Scenarios.recPlainAI.company = .arr l ∧ l ≠ []))) := by
  have hmemD : Scenarios.recDotAmount ∈
      InvestmentParser.extractInvestmentData [Scenarios.msgDotAmount] := by
    rw [show InvestmentParser.extractInvestmentData [Scenarios.msgDotAmount] =
      [Scenarios.recDotAmount] from by decide]
    exact List.mem_singleton.mpr rfl
  have hmemA : Scenarios.recPlainAI ∈
      Telegram.extractInvestmentsWithAI [Scenarios.msgAIPlain]
        (fun _ => .ok Scenarios.respPlain) Scenarios.jpPlain := by
    rw [show Telegram.extractInvestmentsWithAI [Scenarios.msgAIPlain]
      (fun _ => .ok Scenarios.respPlain) Scenarios.jpPlain =
        [Scenarios.recPlainAI] from rfl]
    exact List.mem_singleton.mpr rfl
  exact ⟨⟨hmemD, claim_C9.1 _ _ hmemD⟩,
    ⟨hmemA, claim_C9.2 _ _ _ _ hmemA⟩⟩

/-! ## Claim C2 — roundup company/amount parallel lists -/

theorem epure {ε α : Type} (a : α) : (pure a : Except ε α) = Except.ok a := rfl

theorem ebind_eq_ok {ε α β : Type} {e : Except ε α} {f : α → Except ε β} {b : β}
    (h : (e >>= f) = .ok b) : ∃ a, e = .ok a ∧ f a = .ok b := by
  cases e with
  | ok a => exact ⟨a, rfl, h⟩
  | error e =>
    rw [show ((Except.error e : Except ε α) >>= f) = .error e from rfl] at h
    exact Except.noConfusion h

theorem stdCommonTail_frame {data : Telegram.JsonValue}
    {base r : Telegram.InvestmentData}
    (h : Telegram.stdCommonTail data base = .ok r) :
    r.company = base.company ∧ r.type = base.type ∧ r.date = base.date ∧
    r.rawText = base.rawText ∧ r.amount = base.amount ∧ r.round = base.round ∧
    r.investors = base.investors ∧ r.acquirer = base.acquirer ∧
    r.isPartOfRoundup = base.isPartOfRoundup ∧
    r.acquisitionsInRoundup = base.acquisitionsInRoundup := by
  unfold Telegram.stdCommonTail at h
  obtain ⟨aboutF, _, h⟩ := ebind_eq_ok h
  obtain ⟨valF, _, h⟩ := ebind_eq_ok h
  obtain ⟨linksF, _, h⟩ := ebind_eq_ok h
  simp only [] at h
  rw [epure] at h
  obtain rfl := Except.ok.inj h
  refine ⟨?_, ?_, ?_, ?_, ?_, ?_, ?_, ?_, ?_, ?_⟩ <;>
    (repeat' split) <;> simp

theorem std_roundup_copy :
    ∀ (data : Telegram.JsonValue) (rawText date : JStr)
      (cs as : List Telegram.JsonValue) (r : Telegram.InvestmentData),
      Telegram.jsGetField data "company".toList = .ok (some (.arr cs)) →
      0 < cs.length →
      Telegram.jsGetField data "amount".toList = .ok (some (.arr as)) →
      0 < as.length →
      Telegram.standardizeInvestmentData data rawText date true = .ok r →
      r.company = .arr cs ∧
        r.amount = some (.arr (as.map Telegram.stdAmountElem)) := by
  intro data rawText date cs as r hc hcs ham has hstd
  unfold Telegram.standardizeInvestmentData at hstd
  obtain ⟨type, htype, hstd⟩ := ebind_eq_ok hstd
  rw [show Telegram.stdType data rawText true =
      (pure InvestmentParser.InvType.roundup :
        Except Unit InvestmentParser.InvType) from rfl, epure] at htype
  obtain rfl := (Except.ok.inj htype).symm
  unfold Telegram.stdBody at hstd
  simp only [] at hstd
  rw [if_pos (beq_self_eq_true InvestmentParser.InvType.roundup)] at hstd
  obtain ⟨c, hc2, hstd⟩ := ebind_eq_ok hstd
  rw [hc] at hc2
  obtain rfl := (Except.ok.inj hc2).symm
  simp only [] at hstd
  rw [if_pos hcs] at hstd
  obtain ⟨am, ham2, hstd⟩ := ebind_eq_ok hstd
  rw [ham] at ham2
  obtain rfl := (Except.ok.inj ham2).symm
  simp only [] at hstd
  rw [if_pos has] at hstd
  obtain ⟨cz, hcz, hstd⟩ := ebind_eq_ok hstd
  rw [epure] at hcz
  obtain rfl := (Except.ok.inj hcz).symm
  obtain ⟨acqsF, hacqs, hstd⟩ := ebind_eq_ok hstd
  simp only [] at hstd
  split at hstd
  · split at hstd
    · obtain ⟨entries, hent, hstd⟩ := ebind_eq_ok hstd
      obtain ⟨y, hy, hstd⟩ := ebind_eq_ok hstd
      obtain ⟨h1, h2, h3, h4, h5, h6⟩ := stdCommonTail_frame hstd
      exact ⟨h1, h5⟩
    · obtain ⟨y, hy, hstd⟩ := ebind_eq_ok hstd
      obtain ⟨h1, h2, h3, h4, h5, h6⟩ := stdCommonTail_frame hstd
      exact ⟨h1, h5⟩
  · obtain ⟨y, hy, hstd⟩ := ebind_eq_ok hstd
    obtain ⟨h1, h2, h3, h4, h5, h6⟩ := stdCommonTail_frame hstd
    exact ⟨h1, h5⟩

theorem roundupLineStep_len (acc : List JStr × List JStr) (line : JStr)
    (h : acc.1.length = acc.2.length) :
    (InvestmentParser.roundupLineStep acc line).1.length =
      (InvestmentParser.roundupLineStep acc line).2.length := by
  unfold InvestmentParser.roundupLineStep
  split
  · exact h
  · simp only []
    repeat' split
    all_goals simp [h]

theorem roundupFold_len :
    ∀ (lines : List JStr) (acc : List JStr × List JStr),
      acc.1.length = acc.2.length →
      (lines.foldl InvestmentParser.roundupLineStep acc).1.length =
        (lines.foldl InvestmentParser.roundupLineStep acc).2.length := by
  intro lines
  induction lines with
  | nil => intro acc h; simpa using h
  | cons l ls ih =>
    intro acc h
    rw [List.foldl_cons]
    exact ih _ (roundupLineStep_len acc l h)

theorem parseWeeklyRoundup_shape (m : InvestmentParser.TelegramMessage) :
    ∃ cs as : List JStr,
      (InvestmentParser.parseWeeklyRoundup m).company = .list cs ∧
      (InvestmentParser.parseWeeklyRoundup m).amount = some (.list as) ∧
      cs.length = as.length := by
  refine ⟨_, _, rfl, rfl, roundupFold_len _ ([], []) rfl⟩

theorem extractInvestmentData_mem_parse :
    ∀ (msgs : List InvestmentParser.TelegramMessage)
      (r : InvestmentParser.InvestmentData),
      r ∈ InvestmentParser.extractInvestmentData msgs →
      ∃ m, InvestmentParser.parseInvestmentData m = some r := by
  intro msgs
  induction msgs with
  | nil =>
    intro r hr
    simp [InvestmentParser.extractInvestmentData] at hr
  | cons m ms ih =>
    intro r hr
    simp only [InvestmentParser.extractInvestmentData, List.foldr_cons] at hr ih
    cases hp : InvestmentParser.parseInvestmentData m with
    | none =>
      rw [hp] at hr
      exact ih r hr
    | some result =>
      rw [hp] at hr
      simp only [] at hr
      split at hr
      · rcases List.mem_cons.mp hr with heq | htl
        · subst heq; exact ⟨m, hp⟩
        · exact ih r htl
      · exact ih r hr

theorem parseInvestmentData_roundup
    (m : InvestmentParser.TelegramMessage) (r : InvestmentParser.InvestmentData)
    (h : InvestmentParser.parseInvestmentData m = some r)
    (htype : r.type = InvestmentParser.InvType.roundup) :
    r = InvestmentParser.parseWeeklyRoundup m := by
  unfold InvestmentParser.parseInvestmentData at h
  split at h
  · simp at h
  · unfold InvestmentParser.parseInvestmentDataMain at h
    simp only [] at h
    split at h
    · exact (Option.some.inj h).symm
    · split at h
      · exact (Option.some.inj h).symm
      · split at h
        · simp at h
        · obtain rfl := (Option.some.inj h).symm
          simp only [] at htype
          split at htype <;> simp at htype

/-- C2 (corrected): the deterministic roundup sub-parser does emit
parallel `company`/`amount` lists of equal length, but the AI engine's
normalization does not re-establish the invariant: it copies the model's
`company` array verbatim and maps `$`-stripping over the model's
`amount` array elementwise, so the emitted lengths are exactly the
model's lengths — equal only when the model supplied equal-length
arrays (the counterexample exhibits an emitted roundup record with
`company` of length 2 and `amount` of length 1). -/
theorem claim_C2 :
    (∀ (msgs : List InvestmentParser.TelegramMessage)
       (r : InvestmentParser.InvestmentData),
       r ∈ InvestmentParser.extractInvestmentData msgs →
       r.type = InvestmentParser.InvType.roundup →
       ∃ cs as : List JStr, r.company = .list cs ∧ r.amount = some (.list as) ∧
         cs.length = as.length) ∧
    (∀ (data : Telegram.JsonValue) (rawText date : JStr)
       (cs as : List Telegram.JsonValue) (r : Telegram.InvestmentData),
       Telegram.jsGetField data "company".toList = .ok (some (.arr cs)) →
       0 < cs.length →
       Telegram.jsGetField data "amount".toList = .ok (some (.arr as)) →
       0 < as.length →
       Telegram.standardizeInvestmentData data rawText date true = .ok r →
       r.company = .arr cs ∧
         r.amount = some (.arr (as.map Telegram.stdAmountElem))) := by
  constructor
  · intro msgs r hr htype
    obtain ⟨m, hm⟩ := extractInvestmentData_mem_parse msgs r hr
    obtain rfl := parseInvestmentData_roundup m r hm htype
    exact parseWeeklyRoundup_shape m
  · exact std_roundup_copy

/-- C2 (counterexample): on a roundup message, a model response whose
`company` array has two entries but whose `amount` array has one is
normalized and emitted as a roundup record with `company` of length 2
and `amount` of length 1. -/
theorem claim_C2_counterexample :
    (Telegram.extractInvestmentWithGemini Scenarios.msgRoundupHead
        (.ok Scenarios.respMismatch) Scenarios.jpMismatch).map
        (fun r => (Scenarios.companyArrLen r, Scenarios.amountArrLen r, r.type)) =
      some (some 2, some 1, InvestmentParser.InvType.roundup) := rfl

/-- C2 (witness): the deterministic two-line roundup record is emitted
with equal-length lists, and the AI normalizer run on an equal-length
model value copies both arrays. -/
theorem claim_C2_witness :
    (Scenarios.recRoundupTwo ∈
        InvestmentParser.extractInvestmentData [Scenarios.msgRoundupTwo] ∧
      ∃ cs as : List JStr, Scenarios.recRoundupTwo.company = .list cs ∧
        Scenarios.recRoundupTwo.amount = some (.list as) ∧ cs.length = as.length) ∧
    (Telegram.standardizeInvestmentData Scenarios.dataEqual "t".toList "d".toList
        true = .ok Scenarios.recEqualAI ∧
      Scenarios.recEqualAI.company = .arr [.str "A".toList, .str "B".toList] ∧
      Scenarios.recEqualAI.amount =
        some (.arr ([Telegram.JsonValue.str "$10M".toList,
          .str "2M".toList].map Telegram.stdAmountElem))) := by
  have hmem : Scenarios.recRoundupTwo ∈
      InvestmentParser.extractInvestmentData [Scenarios.msgRoundupTwo] := by decide
  have hstd : Telegram.standardizeInvestmentData Scenarios.dataEqual
      "t".toList "d".toList true = .ok Scenarios.recEqualAI := rfl
  refine ⟨⟨hmem,
    claim_C2.1 [Scenarios.msgRoundupTwo] Scenarios.recRoundupTwo hmem rfl⟩,
    hstd, ?_⟩
  exact claim_C2.2 Scenarios.dataEqual "t".toList "d".toList
    [.str "A".toList, .str "B".toList]
    [.str "$10M".toList, .str "2M".toList]
    Scenarios.recEqualAI rfl (by decide) rfl (by decide) hstd

/-! ## Claim C3 — non-roundup amount format -/

theorem mustCap_dollar2 : MustCap InvestmentParser.dollarAmountRE 2 := by
  simp [InvestmentParser.dollarAmountRE, seqL, MustCap]

theorem groupOf_dollar2 {cs : JStr}
    (h : GroupOf InvestmentParser.dollarAmountRE 2 cs) :
    Matches (RE.cls InvestmentParser.mbChar) cs := by
  simp [InvestmentParser.dollarAmountRE, seqL, GroupOf] at h
  exact h

theorem extractFundingAmount_shape (text : JStr) :
    InvestmentParser.extractFundingAmount text = "Undisclosed".toList ∨
    ∃ p c, InvestmentParser.extractFundingAmount text = p ++ [c] ∧
      (c = 'M' ∨ c = 'B') := by
  unfold InvestmentParser.extractFundingAmount
  simp only []
  split
  next m heq =>
    right
    obtain ⟨g2, hg2⟩ := reFind_mustCap heq mustCap_dollar2
    obtain ⟨c, hcs, hmb⟩ := matches_cls (groupOf_dollar2 (reFind_capGet heq hg2))
    rw [hg2, hcs]
    exact ⟨(capGet m.2.2 1).getD [], c.toUpper, by simp [jsToUpper],
      mbChar_toUpper hmb⟩
  next heq =>
    split
    next m heq2 =>
      right
      exact ⟨_, 'M', rfl, Or.inl rfl⟩
    next heq2 =>
      split
      next m heq3 =>
        right
        obtain ⟨g2, hg2⟩ := reFind_mustCap heq3 mustCap_dollar2
        obtain ⟨c, hcs, hmb⟩ := matches_cls (groupOf_dollar2 (reFind_capGet heq3 hg2))
        rw [hg2, hcs]
        exact ⟨(capGet m.2.2 1).getD [], c.toUpper, by simp [jsToUpper],
          mbChar_toUpper hmb⟩
      next heq3 =>
        left
        split <;> rfl

theorem parseInvestmentData_nonroundup
    (m : InvestmentParser.TelegramMessage) (r : InvestmentParser.InvestmentData)
    (h : InvestmentParser.parseInvestmentData m = some r)
    (htype : r.type ≠ InvestmentParser.InvType.roundup) :
    r.amount = some (.str (InvestmentParser.extractFundingAmount m.text)) := by
  unfold InvestmentParser.parseInvestmentData at h
  split at h
  · simp at h
  · unfold InvestmentParser.parseInvestmentDataMain at h
    simp only [] at h
    split at h
    · obtain rfl := (Option.some.inj h).symm
      exact absurd rfl htype
    · split at h
      · obtain rfl := (Option.some.inj h).symm
        exact absurd rfl htype
      · split at h
        · simp at h
        · obtain rfl := (Option.some.inj h).symm
          rfl

/-- C3 (corrected): a deterministic non-roundup record's `amount` is
`"Undisclosed"` or ends in `'M'`/`'B'`, but need not match
`^[0-9]+(\.[0-9]+)?[MB]$`: the numeric part comes from the character
class `[\d.]+`, which admits strings like `".5"` (the counterexample
emits amount `".5M"`); and the AI engine imposes no format on `amount`
at all, passing the model's string through save for `$`-stripping. -/
theorem claim_C3 :
    ∀ (msgs : List InvestmentParser.TelegramMessage)
      (r : InvestmentParser.InvestmentData),
      r ∈ InvestmentParser.extractInvestmentData msgs →
      r.type ≠ InvestmentParser.InvType.roundup →
      ∃ s, r.amount = some (.str s) ∧
        (s = "Undisclosed".toList ∨
          ∃ p c, s = p ++ [c] ∧ (c = 'M' ∨ c = 'B')) := by
  intro msgs r hr htype
  obtain ⟨m, hm⟩ := extractInvestmentData_mem_parse msgs r hr
  exact ⟨_, parseInvestmentData_nonroundup m r hm htype,
    extractFundingAmount_shape m.text⟩

/-- C3 (counterexample): the message `"Acme Funding\n$.5M"` is emitted
as a non-roundup record whose amount `".5M"` neither matches the
specified pattern nor equals `"Undisclosed"`. -/
theorem claim_C3_counterexample :
    Scenarios.recDotAmount ∈
        InvestmentParser.extractInvestmentData [Scenarios.msgDotAmount] ∧
      Scenarios.recDotAmount.type ≠ InvestmentParser.InvType.roundup ∧
      Scenarios.recDotAmount.amount = some (.str ".5M".toList) ∧
      specAmountFormat ".5M".toList = false ∧
      ".5M".toList ≠ "Undisclosed".toList := by decide

/-- C3 (witness): the emitted record for `msgValuation` is a non-roundup
record whose amount has the amended shape. -/
theorem claim_C3_witness :
    Scenarios.recValuation ∈
        InvestmentParser.extractInvestmentData [Scenarios.msgValuation] ∧
      Scenarios.recValuation.type ≠ InvestmentParser.InvType.roundup ∧
      ∃ s, Scenarios.recValuation.amount = some (.str s) ∧
        (s = "Undisclosed".toList ∨
          ∃ p c, s = p ++ [c] ∧ (c = 'M' ∨ c = 'B')) := by
  have hmem : Scenarios.recValuation ∈
      InvestmentParser.extractInvestmentData [Scenarios.msgValuation] := by decide
  exact ⟨hmem, by decide,
    claim_C3 [Scenarios.msgValuation] Scenarios.recValuation hmem (by decide)⟩

/-! ## Claim C1 -- dollar-sign stripping lemmas -/


theorem truthy_some {x : Option Telegram.JsonValue} (h : Telegram.truthy x = true) :
    ∃ v, x = some v := by
  cases x with
  | none => simp [Telegram.truthy] at h
  | some v => exact ⟨v, rfl⟩

theorem jsStrReplaceDollar_ok {v : Telegram.JsonValue} {s : JStr}
    (h : Telegram.jsStrReplaceDollar v = .ok s) :
    ∃ s0, v = .str s0 ∧ s = jsReplaceFirstEmpty s0 "$".toList := by
  cases v with
  | str s0 =>
    simp only [Telegram.jsStrReplaceDollar, Except.ok.injEq] at h
    exact ⟨s0, rfl, h.symm⟩
  | null => simp [Telegram.jsStrReplaceDollar] at h
  | bool b => simp [Telegram.jsStrReplaceDollar] at h
  | num q => simp [Telegram.jsStrReplaceDollar] at h
  | arr l => simp [Telegram.jsStrReplaceDollar] at h
  | obj fs => simp [Telegram.jsStrReplaceDollar] at h

theorem mapM_mem {α β : Type} {f : α → Except Unit β} :
    ∀ {l : List α} {res : List β}, l.mapM f = .ok res →
      ∀ b ∈ res, ∃ a ∈ l, f a = .ok b := by
  intro l
  induction l with
  | nil =>
    intro res h b hb
    rw [List.mapM_nil, epure] at h
    obtain rfl := (Except.ok.inj h).symm
    cases hb
  | cons x xs ih =>
    intro res h b hb
    rw [List.mapM_cons] at h
    obtain ⟨y, hy, h⟩ := ebind_eq_ok h
    obtain ⟨ys, hys, h⟩ := ebind_eq_ok h
    rw [epure] at h
    obtain rfl := (Except.ok.inj h).symm
    rcases List.mem_cons.mp hb with rfl | hb2
    · exact ⟨x, List.mem_cons_self x xs, hy⟩
    · obtain ⟨a, ha, hfa⟩ := ih hys b hb2
      exact ⟨a, List.mem_cons_of_mem x ha, hfa⟩

theorem stringsOk_arr {l : List Telegram.JsonValue}
    (h : Telegram.stringsOk (.arr l) = true) :
    ∀ v ∈ l, Telegram.stringsOk v = true := by
  rw [Telegram.stringsOk] at h
  intro v hv
  exact Telegram.stringsOkList_mem h hv

theorem headD_mem {α : Type} {l : List α} (h : 0 < l.length) (d : α) :
    l.headD d ∈ l := by
  cases l with
  | nil => simp at h
  | cons x xs => exact List.mem_cons_self x xs

theorem replace_zero_of_le_one {s : JStr} (h : countDollar s ≤ 1) :
    countDollar (jsReplaceFirstEmpty s "$".toList) = 0 :=
  countDollar_replace_le_one h

theorem trim_replace_zero {s : JStr} (h : countDollar s ≤ 1) :
    countDollar (jsReplaceFirstEmpty (jsTrim s) "$".toList) = 0 :=
  countDollar_replace_le_one (le_trans (countDollar_trim_le s) h)





theorem valuation_core {base B1 : Telegram.InvestmentData} {cond : Bool}
    {w : Telegram.JsonValue} {s : JStr}
    (hB1 : B1.valuation = base.valuation)
    (hbase : base.valuation = none)
    (hw : ∀ s1, w = .str s1 → countDollar s1 = 0)
    (hs : (if cond = true then { B1 with valuation := some w } else B1).valuation =
      some (.str s)) :
    countDollar s = 0 := by
  split at hs
  · simp only [] at hs
    rw [Option.some.injEq] at hs
    exact hw s hs
  · rw [hB1, hbase] at hs
    simp at hs

theorem stdCommonTail_valuation {data : Telegram.JsonValue}
    {base r : Telegram.InvestmentData}
    (hok : Telegram.stringsOk data = true)
    (h : Telegram.stdCommonTail data base = .ok r)
    (hbase : base.valuation = none) :
    ∀ s, r.valuation = some (.str s) → countDollar s = 0 := by
  unfold Telegram.stdCommonTail at h
  obtain ⟨aboutF, habout, h⟩ := ebind_eq_ok h
  obtain ⟨valF, hval, h⟩ := ebind_eq_ok h
  obtain ⟨linksF, hlinks, h⟩ := ebind_eq_ok h
  simp only [] at h
  rw [epure] at h
  obtain rfl := Except.ok.inj h
  have hw : ∀ s1,
      (match valF.getD Telegram.JsonValue.null with
        | Telegram.JsonValue.str s0 =>
          Telegram.JsonValue.str (jsReplaceFirstEmpty s0 "$".toList)
        | v => v) = Telegram.JsonValue.str s1 → countDollar s1 = 0 := by
    intro s1 hv
    cases valF with
    | none => simp at hv
    | some v0 =>
      have hsOk := Telegram.stringsOk_getField hok hval
      cases v0 with
      | str s0 =>
        simp only [Option.getD_some, Telegram.JsonValue.str.injEq] at hv
        obtain rfl := hv.symm
        exact replace_zero_of_le_one (Telegram.stringsOk_str hsOk)
      | null => simp at hv
      | bool b => simp at hv
      | num q => simp at hv
      | arr l => simp at hv
      | obj fs => simp at hv
  intro s hs
  split at hs
  · split at hs <;> (try simp only [] at hs) <;>
      exact valuation_core (by split <;> simp [hbase]) hbase hw hs
  · exact valuation_core (by split <;> simp [hbase]) hbase hw hs

theorem mapAcqEntry_amount {acq : Telegram.JsonValue} {a : Telegram.AcqEntry}
    (hok : Telegram.stringsOk acq = true)
    (h : Telegram.mapAcqEntry acq = .ok a) :
    ∀ s, a.amount = some (.str s) → countDollar s = 0 := by
  unfold Telegram.mapAcqEntry at h
  obtain ⟨c, hc, h⟩ := ebind_eq_ok h
  obtain ⟨aq, haq, h⟩ := ebind_eq_ok h
  obtain ⟨am, ham, h⟩ := ebind_eq_ok h
  simp only [] at h
  split at h
  · obtain ⟨v, rfl⟩ := truthy_some (by assumption)
    obtain ⟨s1, hrep, h⟩ := ebind_eq_ok h
    obtain ⟨y, hy, h⟩ := ebind_eq_ok h
    rw [epure] at hy
    obtain rfl := (Except.ok.inj hy).symm
    rw [epure] at h
    obtain rfl := (Except.ok.inj h).symm
    intro s hs
    simp only [] at hs
    rw [Option.some.injEq, Telegram.JsonValue.str.injEq] at hs
    obtain rfl := hs
    simp only [Option.getD_some] at hrep
    obtain ⟨s0, hv, rfl⟩ := jsStrReplaceDollar_ok hrep
    have hsOk := Telegram.stringsOk_getField hok ham
    rw [hv] at hsOk
    exact replace_zero_of_le_one (Telegram.stringsOk_str hsOk)
  · obtain ⟨y, hy, h⟩ := ebind_eq_ok h
    rw [epure] at hy
    obtain rfl := (Except.ok.inj hy).symm
    rw [epure] at h
    obtain rfl := (Except.ok.inj h).symm
    intro s hs
    simp at hs

theorem monetary_of_tail {data : Telegram.JsonValue}
    {base r : Telegram.InvestmentData}
    (hok : Telegram.stringsOk data = true)
    (h : Telegram.stdCommonTail data base = .ok r)
    (h1 : ∀ s, base.amount = some (.str s) → countDollar s = 0)
    (h2 : ∀ l, base.amount = some (.arr l) →
      base.type = InvestmentParser.InvType.roundup →
      ∀ s, Telegram.JsonValue.str s ∈ l → countDollar s = 0)
    (h3 : base.valuation = none)
    (h4 : ∀ entries, base.acquisitionsInRoundup = some entries →
      ∀ a ∈ entries, ∀ s, a.amount = some (.str s) → countDollar s = 0) :
    Telegram.MonetaryDollarFree r := by
  obtain ⟨hc, ht, hd, hw, ha, hr, hi, hq, hp, hacq⟩ := stdCommonTail_frame h
  refine ⟨?_, ?_, stdCommonTail_valuation hok h h3, ?_⟩
  · intro s hs
    exact h1 s (ha.symm.trans hs)
  · intro l hl htyp
    exact h2 l (ha.symm.trans hl) (ht.symm.trans htyp)
  · intro entries he
    exact h4 entries (hacq.symm.trans he)

/-! ## Claim C1 -- capture classes and the monetary walk -/

theorem plusCls_digitDot_no_dollar {cs : JStr}
    (h : Matches (RE.plusCls digitDot) cs) : '$' ∉ cs := by
  intro hd
  exact absurd ((matches_plusCls h).2 '$' hd) (by decide)

theorem groupOf_dollar1 {cs : JStr}
    (h : GroupOf InvestmentParser.dollarAmountRE 1 cs) :
    Matches (RE.plusCls digitDot) cs := by
  simp [InvestmentParser.dollarAmountRE, seqL, GroupOf] at h
  exact h

theorem groupOf_roundupDollar1 {cs : JStr}
    (h : GroupOf InvestmentParser.roundupDollarAmountRE 1 cs) :
    Matches (RE.plusCls digitDot) cs := by
  simp [InvestmentParser.roundupDollarAmountRE, seqL, GroupOf] at h
  exact h

theorem groupOf_acq3 {cs : JStr}
    (h : GroupOf InvestmentParser.acquisitionRegex 3 cs) :
    Matches (RE.plusCls digitDot) cs := by
  simp [InvestmentParser.acquisitionRegex, seqL, GroupOf] at h
  exact h

theorem roundupPatterns_g2 {p : RE} (hp : p ∈ InvestmentParser.roundupPatterns)
    {cs : JStr} (h : GroupOf p 2 cs) :
    Matches (RE.plusCls digitDot) cs := by
  simp [InvestmentParser.roundupPatterns] at hp
  rcases hp with rfl | rfl
  · simp [InvestmentParser.roundupPatternA, seqL, GroupOf] at h
    exact h
  · simp [InvestmentParser.roundupPatternB, seqL, GroupOf] at h
    exact h

theorem extractFundingAmount_no_dollar (text : JStr) :
    '$' ∉ InvestmentParser.extractFundingAmount text := by
  unfold InvestmentParser.extractFundingAmount
  simp only []
  split
  next m heq =>
    intro hd
    rcases List.mem_append.mp hd with hd | hd
    · cases hcap : capGet m.2.2 1 with
      | none => rw [hcap] at hd; simp at hd
      | some g1 =>
        rw [hcap] at hd
        simp only [Option.getD_some] at hd
        exact absurd ((matches_plusCls
          (groupOf_dollar1 (reFind_capGet heq hcap))).2 '$' hd) (by decide)
    · obtain ⟨g2, hg2⟩ := reFind_mustCap heq mustCap_dollar2
      rw [hg2] at hd
      simp only [Option.getD_some] at hd
      obtain ⟨c, hcs, hmb⟩ := matches_cls (groupOf_dollar2 (reFind_capGet heq hg2))
      subst hcs
      simp [jsToUpper] at hd
      rcases mbChar_toUpper hmb with hu | hu <;> rw [hu] at hd <;>
        exact absurd hd (by decide)
  next heq =>
    split
    next m heq2 =>
      intro hd
      rcases List.mem_append.mp hd with hd | hd
      · exact absurd hd (jsToFixed2_no_dollar _)
      · rw [List.mem_singleton] at hd
        exact absurd hd (by decide)
    next heq2 =>
      split
      next m heq3 =>
        intro hd
        rcases List.mem_append.mp hd with hd | hd
        · cases hcap : capGet m.2.2 1 with
          | none => rw [hcap] at hd; simp at hd
          | some g1 =>
            rw [hcap] at hd
            simp only [Option.getD_some] at hd
            exact absurd ((matches_plusCls
              (groupOf_dollar1 (reFind_capGet heq3 hcap))).2 '$' hd) (by decide)
        · obtain ⟨g2, hg2⟩ := reFind_mustCap heq3 mustCap_dollar2
          rw [hg2] at hd
          simp only [Option.getD_some] at hd
          obtain ⟨c, hcs, hmb⟩ := matches_cls (groupOf_dollar2 (reFind_capGet heq3 hg2))
          subst hcs
          simp [jsToUpper] at hd
          rcases mbChar_toUpper hmb with hu | hu <;> rw [hu] at hd <;>
            exact absurd hd (by decide)
      next heq3 =>
        split <;> decide
theorem if_step {C : Prop} [Decidable C] (t e : List JStr × List JStr)
    (ht : ∀ s ∈ t.2, '$' ∉ s) (he : ∀ s ∈ e.2, '$' ∉ s) :
    ∀ s ∈ (if C then t else e).2, '$' ∉ s := by
  split
  · exact ht
  · exact he

theorem contains_step (C : Bool) (acc : List JStr × List JStr) (co amt : JStr)
    (h : ∀ s ∈ acc.2, '$' ∉ s) (hamt : '$' ∉ amt) :
    ∀ s ∈ (if C = true then acc else (acc.1 ++ [co], acc.2 ++ [amt])).2, '$' ∉ s := by
  split
  · exact h
  · intro s hs
    rcases List.mem_append.mp hs with hs | hs
    · exact h s hs
    · rw [List.mem_singleton] at hs
      subst hs
      exact hamt

theorem roundupLineStep_amounts (acc : List JStr × List JStr) (line : JStr)
    (h : ∀ s ∈ acc.2, '$' ∉ s) :
    ∀ s ∈ (InvestmentParser.roundupLineStep acc line).2, '$' ∉ s := by
  unfold InvestmentParser.roundupLineStep
  split
  · exact h
  · simp only []
    split
    next m hfind =>
      refine contains_step _ _ _ _ h ?_
      intro hd
      rcases List.mem_append.mp hd with hd | hd
      · obtain ⟨p, hp, hfp⟩ := List.exists_of_findSome?_eq_some hfind
        cases hcap : capGet m.2.2 2 with
        | none => rw [hcap] at hd; simp at hd
        | some g2 =>
          rw [hcap] at hd
          simp only [Option.getD_some] at hd
          exact absurd ((matches_plusCls
            (roundupPatterns_g2 hp (reFind_capGet hfp hcap))).2 '$' hd) (by decide)
      · rw [List.mem_singleton] at hd
        revert hd
        split <;> decide
    next hfind =>
      refine if_step _ _ ?_ h
      cases hdi : jsIndexOfSub (jsTrim (reStripAt0 InvestmentParser.leadingNonWordRE line))
          "$".toList with
      | none => exact h
      | some di =>
        simp only []
        refine if_step _ _ ?_ h
        refine if_step _ _ ?_ h
        cases ham : reFind InvestmentParser.roundupDollarAmountRE
            (jsTrim (reStripAt0 InvestmentParser.leadingNonWordRE line)) with
        | none => exact h
        | some am =>
          simp only []
          refine contains_step _ _ _ _ h ?_
          intro hd
          rcases List.mem_append.mp hd with hd | hd
          · cases hcap : capGet am.2.2 1 with
            | none => rw [hcap] at hd; simp at hd
            | some g1 =>
              rw [hcap] at hd
              simp only [Option.getD_some] at hd
              exact absurd ((matches_plusCls
                (groupOf_roundupDollar1 (reFind_capGet ham hcap))).2 '$' hd) (by decide)
          · rw [List.mem_singleton] at hd
            revert hd
            split <;> decide

theorem roundupFold_amounts :
    ∀ (lines : List JStr) (acc : List JStr × List JStr),
      (∀ s ∈ acc.2, '$' ∉ s) →
      ∀ s ∈ (lines.foldl InvestmentParser.roundupLineStep acc).2, '$' ∉ s := by
  intro lines
  induction lines with
  | nil => intro acc h; simpa using h
  | cons l ls ih =>
    intro acc h
    rw [List.foldl_cons]
    exact ih _ (roundupLineStep_amounts acc l h)
theorem parseWeeklyRoundup_monetary (m : InvestmentParser.TelegramMessage) :
    InvestmentParser.DetAmountsDollarFree (InvestmentParser.parseWeeklyRoundup m) ∧
    ∀ s, (InvestmentParser.parseWeeklyRoundup m).valuation = some s →
      s.head? = some '$' := by
  constructor
  · refine ⟨?_, ?_, ?_⟩
    · intro s hs
      unfold InvestmentParser.parseWeeklyRoundup at hs
      simp only [] at hs
      simp at hs
    · intro l hl s hsl
      unfold InvestmentParser.parseWeeklyRoundup at hl
      simp only [] at hl
      rw [Option.some.injEq, InvestmentParser.StrOrList.list.injEq] at hl
      obtain rfl := hl.symm
      exact roundupFold_amounts _ ([], []) (by simp) s hsl
    · intro acqs hacqs a ha v hv
      unfold InvestmentParser.parseWeeklyRoundup at hacqs
      simp only [] at hacqs
      split at hacqs
      · rw [Option.some.injEq] at hacqs
        obtain rfl := hacqs.symm
        obtain ⟨x, hx, hmap⟩ := List.mem_map.mp ha
        obtain rfl := hmap
        unfold InvestmentParser.roundupAcqOfMatch at hv
        simp only [] at hv
        split at hv
        next g3 hcap =>
          rw [Option.some.injEq] at hv
          obtain rfl := hv.symm
          intro hd
          rcases List.mem_append.mp hd with hd | hd
          · exact absurd ((matches_plusCls
              (groupOf_acq3 (reMatchAll_capGet hx hcap))).2 '$' hd) (by decide)
          · rw [List.mem_singleton] at hd
            revert hd
            split <;> decide
        next hcap => simp at hv
      · simp at hacqs
  · intro s hs
    unfold InvestmentParser.parseWeeklyRoundup at hs
    simp only [] at hs
    simp at hs

theorem parseInvestmentData_monetary
    (m : InvestmentParser.TelegramMessage) (r : InvestmentParser.InvestmentData)
    (h : InvestmentParser.parseInvestmentData m = some r) :
    InvestmentParser.DetAmountsDollarFree r ∧
    ∀ s, r.valuation = some s → s.head? = some '$' := by
  unfold InvestmentParser.parseInvestmentData at h
  split at h
  · simp at h
  · unfold InvestmentParser.parseInvestmentDataMain at h
    simp only [] at h
    split at h
    · obtain rfl := (Option.some.inj h).symm
      exact parseWeeklyRoundup_monetary m
    · split at h
      · obtain rfl := (Option.some.inj h).symm
        exact parseWeeklyRoundup_monetary m
      · split at h
        · simp at h
        · obtain rfl := (Option.some.inj h).symm
          constructor
          · refine ⟨?_, ?_, ?_⟩
            · intro s hs
              simp only [] at hs
              rw [Option.some.injEq, InvestmentParser.StrOrList.str.injEq] at hs
              obtain rfl := hs
              exact extractFundingAmount_no_dollar m.text
            · intro l hl
              simp only [] at hl
              simp at hl
            · intro acqs hacqs
              simp only [] at hacqs
              simp at hacqs
          · intro s hs
            simp only [] at hs
            split at hs
            next m2 hfv =>
              rw [Option.some.injEq] at hs
              obtain rfl := hs.symm
              rfl
            next => simp at hs

theorem stdBody_monetary :
    ∀ (data : Telegram.JsonValue) (rawText date : JStr)
      (type : InvestmentParser.InvType) (r : Telegram.InvestmentData),
      Telegram.stringsOk data = true →
      Telegram.stdBody data rawText date type = .ok r →
      Telegram.MonetaryDollarFree r := by
  intro data rawText date type r hok hstd
  unfold Telegram.stdBody at hstd
  simp only [] at hstd
  split at hstd
  case isTrue hro =>
    obtain ⟨c, hcF, hstd⟩ := ebind_eq_ok hstd
    split at hstd
    next cs =>
      split at hstd
      case isTrue hcs =>
        obtain ⟨am, hamF, hstd⟩ := ebind_eq_ok hstd
        obtain ⟨y, hy, hstd⟩ := ebind_eq_ok hstd
        rw [epure] at hy
        obtain rfl := (Except.ok.inj hy).symm
        obtain ⟨acqsF, hacqF, hstd⟩ := ebind_eq_ok hstd
        simp only [] at hstd
        split at hstd
        next acqs =>
          split at hstd
          case isTrue hlen2 =>
            obtain ⟨entries, hent, hstd⟩ := ebind_eq_ok hstd
            obtain ⟨y2, hy2, hstd⟩ := ebind_eq_ok hstd
            rw [epure] at hy2
            obtain rfl := (Except.ok.inj hy2).symm
            refine monetary_of_tail hok hstd ?_ ?_ rfl ?_
            · intro s hs
              simp only [] at hs
              split at hs
              · split at hs <;> simp at hs
              · simp at hs
            · intro l hl _
              simp only [] at hl
              split at hl
              · split at hl
                · rw [Option.some.injEq, Telegram.JsonValue.arr.injEq] at hl
                  obtain rfl := hl.symm
                  intro s hsl
                  obtain ⟨e, he, hse⟩ := List.mem_map.mp hsl
                  have heOk := stringsOk_arr (Telegram.stringsOk_getField hok hamF) e he
                  cases e with
                  | str s0 =>
                    simp only [Telegram.stdAmountElem, Telegram.JsonValue.str.injEq] at hse
                    obtain rfl := hse.symm
                    exact trim_replace_zero (Telegram.stringsOk_str heOk)
                  | null => simp [Telegram.stdAmountElem] at hse
                  | bool b => simp [Telegram.stdAmountElem] at hse
                  | num q => simp [Telegram.stdAmountElem] at hse
                  | arr l2 => simp [Telegram.stdAmountElem] at hse
                  | obj fs => simp [Telegram.stdAmountElem] at hse
                · simp at hl
              · simp at hl
            · intro entries2 hent2 a ha s hsa
              simp only [] at hent2
              rw [Option.some.injEq] at hent2
              obtain rfl := hent2.symm
              obtain ⟨acq, hacqm, hfa⟩ := mapM_mem hent a ha
              exact mapAcqEntry_amount
                (stringsOk_arr (Telegram.stringsOk_getField hok hacqF) acq hacqm)
                hfa s hsa
          case isFalse hlen2 =>
            obtain ⟨y2, hy2, hstd⟩ := ebind_eq_ok hstd
            rw [epure] at hy2
            obtain rfl := (Except.ok.inj hy2).symm
            refine monetary_of_tail hok hstd ?_ ?_ rfl ?_
            · intro s hs
              simp only [] at hs
              split at hs
              · split at hs <;> simp at hs
              · simp at hs
            · intro l hl _
              simp only [] at hl
              split at hl
              · split at hl
                · rw [Option.some.injEq, Telegram.JsonValue.arr.injEq] at hl
                  obtain rfl := hl.symm
                  intro s hsl
                  obtain ⟨e, he, hse⟩ := List.mem_map.mp hsl
                  have heOk := stringsOk_arr (Telegram.stringsOk_getField hok hamF) e he
                  cases e with
                  | str s0 =>
                    simp only [Telegram.stdAmountElem, Telegram.JsonValue.str.injEq] at hse
                    obtain rfl := hse.symm
                    exact trim_replace_zero (Telegram.stringsOk_str heOk)
                  | null => simp [Telegram.stdAmountElem] at hse
                  | bool b => simp [Telegram.stdAmountElem] at hse
                  | num q => simp [Telegram.stdAmountElem] at hse
                  | arr l2 => simp [Telegram.stdAmountElem] at hse
                  | obj fs => simp [Telegram.stdAmountElem] at hse
                · simp at hl
              · simp at hl
            · intro entries hent
              simp at hent
        next =>
          obtain ⟨y2, hy2, hstd⟩ := ebind_eq_ok hstd
          rw [epure] at hy2
          obtain rfl := (Except.ok.inj hy2).symm
          refine monetary_of_tail hok hstd ?_ ?_ rfl ?_
          · intro s hs
            simp only [] at hs
            split at hs
            · split at hs <;> simp at hs
            · simp at hs
          · intro l hl _
            simp only [] at hl
            split at hl
            · split at hl
              · rw [Option.some.injEq, Telegram.JsonValue.arr.injEq] at hl
                obtain rfl := hl.symm
                intro s hsl
                obtain ⟨e, he, hse⟩ := List.mem_map.mp hsl
                have heOk := stringsOk_arr (Telegram.stringsOk_getField hok hamF) e he
                cases e with
                | str s0 =>
                  simp only [Telegram.stdAmountElem, Telegram.JsonValue.str.injEq] at hse
                  obtain rfl := hse.symm
                  exact trim_replace_zero (Telegram.stringsOk_str heOk)
                | null => simp [Telegram.stdAmountElem] at hse
                | bool b => simp [Telegram.stdAmountElem] at hse
                | num q => simp [Telegram.stdAmountElem] at hse
                | arr l2 => simp [Telegram.stdAmountElem] at hse
                | obj fs => simp [Telegram.stdAmountElem] at hse
              · simp at hl
            · simp at hl
          · intro entries hent
            simp at hent
      case isFalse hcs =>
        obtain ⟨y, hy, hstd⟩ := ebind_eq_ok hstd
        rw [epure] at hy
        obtain rfl := (Except.ok.inj hy).symm
        obtain ⟨acqsF, hacqF, hstd⟩ := ebind_eq_ok hstd
        simp only [] at hstd
        split at hstd
        next acqs =>
          split at hstd
          case isTrue hlen2 =>
            obtain ⟨entries, hent, hstd⟩ := ebind_eq_ok hstd
            obtain ⟨y2, hy2, hstd⟩ := ebind_eq_ok hstd
            rw [epure] at hy2
            obtain rfl := (Except.ok.inj hy2).symm
            refine monetary_of_tail hok hstd ?_ ?_ rfl ?_
            · intro s hs
              simp at hs
            · intro l hl
              simp at hl
            · intro entries2 hent2 a ha s hsa
              simp only [] at hent2
              rw [Option.some.injEq] at hent2
              obtain rfl := hent2.symm
              obtain ⟨acq, hacqm, hfa⟩ := mapM_mem hent a ha
              exact mapAcqEntry_amount
                (stringsOk_arr (Telegram.stringsOk_getField hok hacqF) acq hacqm)
                hfa s hsa
          case isFalse hlen2 =>
            obtain ⟨y2, hy2, hstd⟩ := ebind_eq_ok hstd
            rw [epure] at hy2
            obtain rfl := (Except.ok.inj hy2).symm
            refine monetary_of_tail hok hstd ?_ ?_ rfl ?_
            · intro s hs
              simp at hs
            · intro l hl
              simp at hl
            · intro entries hent
              simp at hent
        next =>
          obtain ⟨y2, hy2, hstd⟩ := ebind_eq_ok hstd
          rw [epure] at hy2
          obtain rfl := (Except.ok.inj hy2).symm
          refine monetary_of_tail hok hstd ?_ ?_ rfl ?_
          · intro s hs
            simp at hs
          · intro l hl
            simp at hl
          · intro entries hent
            simp at hent
    next =>
      obtain ⟨y, hy, hstd⟩ := ebind_eq_ok hstd
      rw [epure] at hy
      obtain rfl := (Except.ok.inj hy).symm
      obtain ⟨acqsF, hacqF, hstd⟩ := ebind_eq_ok hstd
      simp only [] at hstd
      split at hstd
      next acqs =>
        split at hstd
        case isTrue hlen2 =>
          obtain ⟨entries, hent, hstd⟩ := ebind_eq_ok hstd
          obtain ⟨y2, hy2, hstd⟩ := ebind_eq_ok hstd
          rw [epure] at hy2
          obtain rfl := (Except.ok.inj hy2).symm
          refine monetary_of_tail hok hstd ?_ ?_ rfl ?_
          · intro s hs
            simp at hs
          · intro l hl
            simp at hl
          · intro entries2 hent2 a ha s hsa
            simp only [] at hent2
            rw [Option.some.injEq] at hent2
            obtain rfl := hent2.symm
            obtain ⟨acq, hacqm, hfa⟩ := mapM_mem hent a ha
            exact mapAcqEntry_amount
              (stringsOk_arr (Telegram.stringsOk_getField hok hacqF) acq hacqm)
              hfa s hsa
        case isFalse hlen2 =>
          obtain ⟨y2, hy2, hstd⟩ := ebind_eq_ok hstd
          rw [epure] at hy2
          obtain rfl := (Except.ok.inj hy2).symm
          refine monetary_of_tail hok hstd ?_ ?_ rfl ?_
          · intro s hs
            simp at hs
          · intro l hl
            simp at hl
          · intro entries hent
            simp at hent
      next =>
        obtain ⟨y2, hy2, hstd⟩ := ebind_eq_ok hstd
        rw [epure] at hy2
        obtain rfl := (Except.ok.inj hy2).symm
        refine monetary_of_tail hok hstd ?_ ?_ rfl ?_
        · intro s hs
          simp at hs
        · intro l hl
          simp at hl
        · intro entries hent
          simp at hent
  case isFalse hro =>
    split at hstd
    case isTrue hac =>
      obtain ⟨c, hcF, hstd⟩ := ebind_eq_ok hstd
      obtain ⟨acqsF, hacqF, hstd⟩ := ebind_eq_ok hstd
      split at hstd
      case isTrue hcond =>
        rw [Bool.and_eq_true] at hcond
        obtain ⟨v0, rfl⟩ := truthy_some hcond.1
        have hv0Ok := Telegram.stringsOk_getField hok hacqF
        simp only [Option.getD_some] at hstd
        split at hstd
        next acqs =>
          split at hstd
          case isTrue hlen =>
            have ha0 := stringsOk_arr hv0Ok _ (headD_mem hlen Telegram.JsonValue.null)
            obtain ⟨aqF, haqF, hstd⟩ := ebind_eq_ok hstd
            obtain ⟨amF, hamF, hstd⟩ := ebind_eq_ok hstd
            split at hstd
            case isTrue htr =>
              obtain ⟨w, rfl⟩ := truthy_some htr
              have hwOk := Telegram.stringsOk_getField ha0 hamF
              obtain ⟨s1, hrep, hstd⟩ := ebind_eq_ok hstd
              obtain ⟨y1, hy1, hstd⟩ := ebind_eq_ok hstd
              rw [epure] at hy1
              obtain rfl := (Except.ok.inj hy1).symm
              obtain ⟨y2, hy2, hstd⟩ := ebind_eq_ok hstd
              rw [epure] at hy2
              obtain rfl := (Except.ok.inj hy2).symm
              simp only [Option.getD_some] at hrep
              obtain ⟨s0, hw, rfl⟩ := jsStrReplaceDollar_ok hrep
              rw [hw] at hwOk
              refine monetary_of_tail hok hstd ?_ ?_ rfl ?_
              · intro s hs
                simp only [] at hs
                rw [Option.some.injEq, Telegram.JsonValue.str.injEq] at hs
                obtain rfl := hs
                exact replace_zero_of_le_one (Telegram.stringsOk_str hwOk)
              · intro l hl htyp
                simp only [] at htyp
                exact absurd (by rw [htyp]; exact beq_self_eq_true _) hro
              · intro entries hent
                simp at hent
            case isFalse htr =>
              obtain ⟨y1, hy1, hstd⟩ := ebind_eq_ok hstd
              rw [epure] at hy1
              obtain rfl := (Except.ok.inj hy1).symm
              obtain ⟨y2, hy2, hstd⟩ := ebind_eq_ok hstd
              rw [epure] at hy2
              obtain rfl := (Except.ok.inj hy2).symm
              refine monetary_of_tail hok hstd ?_ ?_ rfl ?_
              · intro s hs
                simp at hs
              · intro l hl
                simp at hl
              · intro entries hent
                simp at hent
          case isFalse hlen =>
            obtain ⟨y2, hy2, hstd⟩ := ebind_eq_ok hstd
            rw [epure] at hy2
            obtain rfl := (Except.ok.inj hy2).symm
            refine monetary_of_tail hok hstd ?_ ?_ rfl ?_
            · intro s hs
              simp at hs
            · intro l hl
              simp at hl
            · intro entries hent
              simp at hent
        next v =>
          obtain ⟨aqF, haqF, hstd⟩ := ebind_eq_ok hstd
          obtain ⟨amF, hamF, hstd⟩ := ebind_eq_ok hstd
          split at hstd
          case isTrue htr =>
            obtain ⟨w, rfl⟩ := truthy_some htr
            have hwOk := Telegram.stringsOk_getField hv0Ok hamF
            obtain ⟨s1, hrep, hstd⟩ := ebind_eq_ok hstd
            obtain ⟨y1, hy1, hstd⟩ := ebind_eq_ok hstd
            rw [epure] at hy1
            obtain rfl := (Except.ok.inj hy1).symm
            obtain ⟨y2, hy2, hstd⟩ := ebind_eq_ok hstd
            rw [epure] at hy2
            obtain rfl := (Except.ok.inj hy2).symm
            simp only [Option.getD_some] at hrep
            obtain ⟨s0, hw, rfl⟩ := jsStrReplaceDollar_ok hrep
            rw [hw] at hwOk
            refine monetary_of_tail hok hstd ?_ ?_ rfl ?_
            · intro s hs
              simp only [] at hs
              rw [Option.some.injEq, Telegram.JsonValue.str.injEq] at hs
              obtain rfl := hs
              exact replace_zero_of_le_one (Telegram.stringsOk_str hwOk)
            · intro l hl htyp
              simp only [] at htyp
              exact absurd (by rw [htyp]; exact beq_self_eq_true _) hro
            · intro entries hent
              simp at hent
          case isFalse htr =>
            obtain ⟨y1, hy1, hstd⟩ := ebind_eq_ok hstd
            rw [epure] at hy1
            obtain rfl := (Except.ok.inj hy1).symm
            obtain ⟨y2, hy2, hstd⟩ := ebind_eq_ok hstd
            rw [epure] at hy2
            obtain rfl := (Except.ok.inj hy2).symm
            refine monetary_of_tail hok hstd ?_ ?_ rfl ?_
            · intro s hs
              simp at hs
            · intro l hl
              simp at hl
            · intro entries hent
              simp at hent
      case isFalse hcond =>
        obtain ⟨aqF, haqF, hstd⟩ := ebind_eq_ok hstd
        obtain ⟨amF, hamF, hstd⟩ := ebind_eq_ok hstd
        obtain ⟨y, hy, hstd⟩ := ebind_eq_ok hstd
        rw [epure] at hy
        obtain rfl := (Except.ok.inj hy).symm
        refine monetary_of_tail hok hstd ?_ ?_ rfl ?_
        · intro s hs
          simp only [] at hs
          split at hs
          · rw [Option.some.injEq] at hs
            obtain ⟨w, rfl⟩ := truthy_some (by assumption)
            have hwOk := Telegram.stringsOk_getField hok hamF
            cases w with
            | str s0 =>
              simp only [Option.getD_some, Telegram.JsonValue.str.injEq] at hs
              obtain rfl := hs.symm
              exact replace_zero_of_le_one (Telegram.stringsOk_str hwOk)
            | null => simp at hs
            | bool b => simp at hs
            | num q => simp at hs
            | arr l => simp at hs
            | obj fs => simp at hs
          · simp at hs
        · intro l hl htyp
          simp only [] at htyp
          exact absurd (by rw [htyp]; exact beq_self_eq_true _) hro
        · intro entries hent
          simp at hent
    case isFalse hac =>
      obtain ⟨c, hcF, hstd⟩ := ebind_eq_ok hstd
      obtain ⟨amF, hamF, hstd⟩ := ebind_eq_ok hstd
      obtain ⟨rF, hrF, hstd⟩ := ebind_eq_ok hstd
      obtain ⟨invF, hinvF, hstd⟩ := ebind_eq_ok hstd
      refine monetary_of_tail hok hstd ?_ ?_ rfl ?_
      · intro s hs
        simp only [] at hs
        split at hs
        · rw [Option.some.injEq] at hs
          obtain ⟨v, rfl⟩ := truthy_some (by assumption)
          have hsOk := Telegram.stringsOk_getField hok hamF
          cases v with
          | str s0 =>
            simp only [Option.getD_some, Telegram.JsonValue.str.injEq] at hs
            obtain rfl := hs.symm
            exact replace_zero_of_le_one (Telegram.stringsOk_str hsOk)
          | null => simp at hs
          | bool b => simp at hs
          | num q => simp at hs
          | arr l => simp at hs
          | obj fs => simp at hs
        · simp at hs
      · intro l hl htyp
        simp only [] at htyp
        exact absurd (by rw [htyp]; exact beq_self_eq_true _) hro
      · intro entries hent
        simp at hent

/-- C1 (corrected): the deterministic engine's `amount` fields (scalar,
roundup list entries, and nested acquisition amounts) contain no `'$'`,
but its `valuation` is built as `'$' + match + 'M'` and therefore always
RETAINS a literal `'$'` (the counterexample emits `valuation = "$10M"`).
The AI normalizer strips only the FIRST `'$'` of each monetary string
(`String.replace('$','')` with a string pattern), so its output is
`'$'`-free exactly under the hypothesis that every string in the model's
value contains at most one `'$'`. -/
theorem claim_C1 :
    (∀ (msgs : List InvestmentParser.TelegramMessage)
       (r : InvestmentParser.InvestmentData),
       r ∈ InvestmentParser.extractInvestmentData msgs →
       InvestmentParser.DetAmountsDollarFree r ∧
       ∀ s, r.valuation = some s → s.head? = some '$') ∧
    (∀ (data : Telegram.JsonValue) (rawText date : JStr) (isRoundup : Bool)
       (r : Telegram.InvestmentData),
       Telegram.stringsOk data = true →
       Telegram.standardizeInvestmentData data rawText date isRoundup = .ok r →
       Telegram.MonetaryDollarFree r) := by
  constructor
  · intro msgs r hr
    obtain ⟨m, hm⟩ := extractInvestmentData_mem_parse msgs r hr
    exact parseInvestmentData_monetary m r hm
  · intro data rawText date isRoundup r hok hstd
    unfold Telegram.standardizeInvestmentData at hstd
    obtain ⟨type, htype, hstd⟩ := ebind_eq_ok hstd
    exact stdBody_monetary data rawText date type r hok hstd

/-- C1 (counterexample): the deterministic engine emits the record for
`"Acme Seed Round\nValuation: $10M"` with `valuation = "$10M"` — the
literal `'$'` is retained, not stripped. -/
theorem claim_C1_counterexample :
    Scenarios.recValuation ∈
        InvestmentParser.extractInvestmentData [Scenarios.msgValuation] ∧
      Scenarios.recValuation.valuation = some "$10M".toList ∧
      '$' ∈ "$10M".toList := by decide

/-- C1 (witness): a deterministic record has `'$'`-free amounts, and the
AI normalizer de-dollars a model value whose strings carry at most one
`'$'` each. -/
theorem claim_C1_witness :
    (Scenarios.recDotAmount ∈
        InvestmentParser.extractInvestmentData [Scenarios.msgDotAmount] ∧
      InvestmentParser.DetAmountsDollarFree Scenarios.recDotAmount) ∧
    (Telegram.stringsOk Scenarios.dataDollar = true ∧
      Telegram.standardizeInvestmentData Scenarios.dataDollar "t".toList
        "d".toList false = .ok Scenarios.recDollarAI ∧
      Telegram.MonetaryDollarFree Scenarios.recDollarAI) := by
  have hmem : Scenarios.recDotAmount ∈
      InvestmentParser.extractInvestmentData [Scenarios.msgDotAmount] := by decide
  have hok : Telegram.stringsOk Scenarios.dataDollar = true := by decide
  have hstd : Telegram.standardizeInvestmentData Scenarios.dataDollar "t".toList
      "d".toList false = .ok Scenarios.recDollarAI := rfl
  exact ⟨⟨hmem, (claim_C1.1 [Scenarios.msgDotAmount] Scenarios.recDotAmount hmem).1⟩,
    hok, hstd, claim_C1.2 Scenarios.dataDollar "t".toList "d".toList false
      Scenarios.recDollarAI hok hstd⟩

end TgIngest
